import Mathlib

/-!
Verification of the binary-radix-tree core of the MaxMind DB writer
(`src/c/tree.c`).  The C code is shallowly embedded: the node pool is a
`List MNode` and node handles are list indices (the C stores raw pointers
into the pool; handle identity is index identity here), payload keys are
byte lists (`SvPVbyte` views), Perl SV values are abstracted as naturals,
and the address-resolver collaborator is abstracted by letting operations
take already-resolved networks (byte vector, mask length, family).
Machine integers are modelled as `Nat` with explicit `% 256` / `% 2 ^ 32`
where the C's `uint8_t` / `uint32_t` wrap-around matters.
-/

/-- A payload key: the byte string of the Perl key SV (`SvPVbyte`).
Key identity in the merge test is `memcmp` byte equality, i.e. list
equality. -/
abbrev MKey := List Nat

/-- `MMDBW_record_s`: a record is EMPTY, NODE (child handle = pool index)
or DATA (payload key). -/
inductive MRecord where
  | empty : MRecord
  | node (idx : Nat) : MRecord
  | data (key : MKey) : MRecord
deriving DecidableEq, Repr

/-- `MMDBW_node_s`: two records and the number assigned at finalization. -/
structure MNode where
  left : MRecord
  right : MRecord
  number : Nat
deriving DecidableEq, Repr

/-- The node pool.  `new_node` appends; a node handle is its index. -/
abbrev Pool := List MNode

/-- A node with both records EMPTY and number 0, the state `new_node`
leaves a fresh node in (tree.c lines 534-535). -/
def emptyMNode : MNode := ⟨.empty, .empty, 0⟩

/-- Reading a node by handle.  Out-of-range reads (which would be
undefined behaviour in C) yield the all-empty node. -/
def getNode (p : Pool) (i : Nat) : MNode := p.getD i emptyMNode

/-- Selecting a side of a node: `true` is `right_record`, `false` is
`left_record`. -/
def getSide (n : MNode) (b : Bool) : MRecord := if b then n.right else n.left

/-- Writing one record of the node at index `i` (out-of-range writes are
lost, mirroring that no such write can land in the pool). -/
def setSide (p : Pool) (i : Nat) (b : Bool) (r : MRecord) : Pool :=
  p.set i (if b then { getNode p i with right := r } else { getNode p i with left := r })

/-- Overwriting the `number` field of node `i` (`assign_node_number`). -/
def setNumber (p : Pool) (i n : Nat) : Pool :=
  p.set i { getNode p i with number := n }

/-- `MMDBW_network_s`: resolved network bytes, mask length (a `uint8_t`),
`max_depth0` (31 for v4, 127 for v6) and address family (4 or 6,
abstracting `AF_INET` / `AF_INET6`). -/
structure MNetwork where
  bytes : List Nat
  maskLength : Nat
  maxDepth0 : Nat
  family : Nat
deriving DecidableEq, Repr

/-- The `NETWORK_BIT_VALUE` macro:
`bytes[(max_depth0 - cb) >> 3] & (1 << (~(max_depth0 - cb) & 7))`,
i.e. bit `7 - ((d0 - cb) % 8)` of byte `(d0 - cb) / 8`. -/
def networkBit (bytes : List Nat) (d0 cb : Nat) : Bool :=
  (bytes.getD ((d0 - cb) / 8) 0) >>> (7 - (d0 - cb) % 8) % 2 = 1

/-- `uint8_t last_bit = max_depth0 - (mask_length - 1)` — the subtraction
happens at `int` width and the result is truncated to `uint8_t`, hence
the mod-256 of the possibly negative value. -/
def lastBit (d0 m : Nat) : Nat := (((d0 : Int) + 1 - m) % 256).toNat

/-- Number of iterations of the descent loop in `find_node_for_network`:
`current_bit` runs from `max_depth0` down while `> last_bit`. -/
def findSteps (d0 m : Nat) : Nat := d0 - lastBit d0 m

/-- `make_next_node`: a fresh node; when the overwritten record was
DATA(k), both records of the fresh node are DATA(k), otherwise both are
EMPTY (tree.c lines 501-515). -/
def makeNextNode (r : MRecord) : MNode :=
  match r with
  | .data k => ⟨.data k, .data k, 0⟩
  | _ => emptyMNode

/-- The descent loop of `find_node_for_network` (tree.c lines 452-493).
`mat = true` is the `make_next_node` policy, `mat = false` is
`return_null` (halt).  `cb` is `*current_bit`; `n` is the number of
remaining iterations.  When the record already is NODE the C re-stores
the identical record into the same slot (lines 481-487), a semantic
no-op, so the pool is passed through unchanged in that branch.
Returns (pool, node handle, final `*current_bit`). -/
def findGo (mat : Bool) (p : Pool) (bytes : List Nat) (d0 : Nat) :
    Nat → Nat → Nat → Pool × Nat × Nat
  | idx, cb, 0 => (p, idx, cb)
  | idx, cb, n + 1 =>
    let b := networkBit bytes d0 cb
    match getSide (getNode p idx) b with
    | .node j => findGo mat p bytes d0 j (cb - 1) n
    | r =>
      if mat then
        let j := p.length
        let p1 := setSide (p ++ [makeNextNode r]) idx b (.node j)
        findGo mat p1 bytes d0 j (cb - 1) n
      else (p, idx, cb)

/-- `find_node_for_network`: descend from the root (handle 0, the node
allocated first by `new_tree`) starting at `current_bit = max_depth0`. -/
def findNodeForNetwork (mat : Bool) (p : Pool) (nw : MNetwork) : Pool × Nat × Nat :=
  findGo mat p nw.bytes nw.maxDepth0 0 nw.maxDepth0 (findSteps nw.maxDepth0 nw.maskLength)

/-- `insert_record_for_network` (tree.c lines 368-422).  The sibling
merge recurses with `mask_length - 1` computed at `uint8_t` width
(`(m + 255) % 256`); the C recursion is unbounded, so the embedding
carries fuel and returns `none` only on fuel exhaustion. -/
def insertRecordForNetwork (p : Pool) (nw : MNetwork) (newRec : MRecord) :
    Nat → Option Pool
  | 0 => none
  | fuel + 1 =>
    let fr := findNodeForNetwork true p nw
    let p1 := fr.1
    let x := fr.2.1
    let cb := fr.2.2
    let b := networkBit nw.bytes nw.maxDepth0 cb
    let other := getSide (getNode p1 x) (!b)
    let step : Option Pool :=
      match newRec, other with
      | .data kn, .data ko =>
        if kn = ko then
          insertRecordForNetwork p1
            { nw with maskLength := (nw.maskLength + 255) % 256 } newRec fuel
        else some p1
      | _, _ => some p1
    step.map (fun p2 => setSide p2 x b newRec)

/-- `MMDBW_tree_s` (the fields the core logic reads). -/
structure MTree where
  ipVersion : Nat
  recordSize : Nat
  nodesPerAlloc : Nat
  pool : Pool
  dataHash : List (MKey × Nat)
  isFinalized : Bool
  nodeCount : Nat
deriving DecidableEq, Repr

/-- `new_tree` (tree.c lines 73-100): no validation of `ip_version` or
`record_size` is performed (the `XXX` comments at lines 78 and 80 note
the missing checks); the root node is allocated, the finalized flag is
clear, and `nodes_per_alloc` falls back to `2^18` when 0 was passed. -/
def newTree (ipVersion recordSize nodesPerAlloc : Nat) : MTree :=
  { ipVersion := ipVersion
    recordSize := recordSize
    nodesPerAlloc := if 0 < nodesPerAlloc then nodesPerAlloc else 262144
    pool := [emptyMNode]
    dataHash := []
    isFinalized := false
    nodeCount := 0 }

/-- `hv_store_ent`: store key → value, replacing an existing entry. -/
def hvStore (h : List (MKey × Nat)) (k : MKey) (v : Nat) : List (MKey × Nat) :=
  match h with
  | [] => [(k, v)]
  | (k', v') :: rest => if k' = k then (k, v) :: rest else (k', v') :: hvStore rest k v

/-- `data_for_key` (tree.c lines 696-704). -/
def dataForKey (h : List (MKey × Nat)) (k : MKey) : Option Nat :=
  match h with
  | [] => none
  | (k', v) :: rest => if k' = k then some v else dataForKey rest k

/-- `insert_network` (tree.c lines 102-131): reject a v6 network in a v4
tree (return -1, here `some none`); otherwise store the pair in the data
hash, insert a DATA record and clear the finalized flag.  Outer `none`
is fuel exhaustion of the merge recursion. -/
def insertNetwork (fuel : Nat) (t : MTree) (nw : MNetwork) (k : MKey) (v : Nat) :
    Option (Option MTree) :=
  if t.ipVersion = 4 ∧ nw.family = 6 then some none
  else
    match insertRecordForNetwork t.pool nw (.data k) fuel with
    | none => none
    | some p =>
      some (some { t with dataHash := hvStore t.dataHash k v, pool := p, isFinalized := false })

/-- `tree_has_network` (tree.c lines 307-318): halt-descend, then test
the side selected by the bit at the final `current_bit`. -/
def treeHasNetwork (t : MTree) (nw : MNetwork) : Bool :=
  let fr := findNodeForNetwork false t.pool nw
  match getSide (getNode t.pool fr.2.1) (networkBit nw.bytes nw.maxDepth0 fr.2.2) with
  | .empty => false
  | _ => true

/-- `delete_network` (tree.c lines 289-305): nothing happens unless the
tree has the network; deletion inserts an EMPTY record.  Note the C does
NOT touch `is_finalized` here. -/
def deleteNetwork (fuel : Nat) (t : MTree) (nw : MNetwork) : Option MTree :=
  if t.ipVersion = 4 ∧ nw.family = 6 then some t
  else if treeHasNetwork t nw then
    (insertRecordForNetwork t.pool nw .empty fuel).map (fun p => { t with pool := p })
  else some t

/-- Result of `lookup_ip_address` (tree.c lines 424-450): `none` is the
`croak` on finding a NODE record at a host address, `some none` is
`&PL_sv_undef` (record EMPTY) and `some (some v)` a data hit. -/
def lookupIpAddress (t : MTree) (bytes : List Nat) : Option (Option Nat) :=
  let d0 := if t.ipVersion = 6 then 127 else 31
  let nw : MNetwork := ⟨bytes, d0 + 1, d0, t.ipVersion⟩
  let fr := findNodeForNetwork false t.pool nw
  match getSide (getNode t.pool fr.2.1) (networkBit bytes d0 fr.2.2) with
  | .node _ => none
  | .empty => some none
  | .data k => some (dataForKey t.dataHash k)

/-- Resolved bytes of `::0.0.0.0` (all zeros). -/
def ipv4RootBytes : List Nat := List.replicate 16 0

/-- Resolved bytes of `::ffff:0:0`. -/
def ffffBytes : List Nat := [0, 0, 0, 0, 0, 0, 0, 0, 0, 0, 255, 255, 0, 0, 0, 0]

/-- Resolved bytes of `2002::`. -/
def b2002 : List Nat := [32, 2, 0, 0, 0, 0, 0, 0, 0, 0, 0, 0, 0, 0, 0, 0]

/-- One alias installation: materialize-descend to the alias network and
point the selected side at the v4 root node (tree.c lines 350-365). -/
def aliasOne (p : Pool) (al : MNetwork) (v4root : Nat) : Pool :=
  let fr := findNodeForNetwork true p al
  setSide fr.1 fr.2.1 (networkBit al.bytes al.maxDepth0 fr.2.2) (.node v4root)

/-- `alias_ipv4_networks` (tree.c lines 331-366): find the node for
`::0.0.0.0/96` with the halt policy; if the descent did not end with
`current_bit = 32` there is nothing to alias; otherwise install that
node under `::ffff:0:0/95` and `2002::/16`. -/
def aliasIpv4Networks (t : MTree) : MTree :=
  if t.ipVersion = 4 then t
  else
    let fr := findNodeForNetwork false t.pool ⟨ipv4RootBytes, 96, 127, 6⟩
    if fr.2.2 ≠ 32 then t
    else
      let p1 := aliasOne t.pool ⟨ffffBytes, 95, 127, 6⟩ fr.2.1
      let p2 := aliasOne p1 ⟨b2002, 16, 127, 6⟩ fr.2.1
      { t with pool := p2 }

/-- Byte `i` of the in-memory object representation of the 32-bit value
`v` on a host of the given byte order: `((uint8_t *)&left)[i]`
(tree.c lines 583-584).  `encode_node` performs no `htonl`, so which
byte this cast reads depends on the build host: on a big-endian host
byte 0 is the most significant byte, on a little-endian host it is the
least significant one. -/
def byteAt (be : Bool) (v i : Nat) : Nat :=
  if be then v / 2 ^ (8 * (3 - i)) % 256 else v / 2 ^ (8 * i) % 256

/-- Context the encode callback reads from the tree and its Perl
collaborators: `record_size`, `node_count`, and the data-section
collaborator `store_data` abstracted as a position oracle. -/
structure EncCtx where
  recordSize : Nat
  nodeCount : Nat
  posOf : MKey → Nat

/-- `record_value_as_number` (tree.c lines 602-637): EMPTY → 0, NODE →
the child's number, DATA → the collaborator's position plus
`node_count` plus `DATA_SECTION_SEPARATOR_SIZE` (16), truncated to
`uint32_t`. -/
def recordValueAsNumber (ctx : EncCtx) (p : Pool) (r : MRecord) : Nat :=
  match r with
  | .empty => 0
  | .node j => (getNode p j).number
  | .data k => (ctx.posOf k + ctx.nodeCount + 16) % 2 ^ 32

/-- `encode_node` (tree.c lines 578-600): the bytes one node contributes
to the output on a host of byte order `be`.  For 28-bit records the
middle byte is `(left_bytes[0] << 4) | (right_bytes[0] & 15)` passed
through `%c`, hence the `% 256`. -/
def encodeNodeBytes (be : Bool) (ctx : EncCtx) (p : Pool) (nd : MNode) : List Nat :=
  let l := recordValueAsNumber ctx p nd.left
  let r := recordValueAsNumber ctx p nd.right
  if ctx.recordSize = 24 then
    [byteAt be l 1, byteAt be l 2, byteAt be l 3,
     byteAt be r 1, byteAt be r 2, byteAt be r 3]
  else if ctx.recordSize = 28 then
    [byteAt be l 1, byteAt be l 2, byteAt be l 3,
     ((byteAt be l 0 <<< 4) ||| (byteAt be r 0 &&& 15)) % 256,
     byteAt be r 1, byteAt be r 2, byteAt be r 3]
  else
    [byteAt be l 0, byteAt be l 1, byteAt be l 2, byteAt be l 3,
     byteAt be r 0, byteAt be r 1, byteAt be r 2, byteAt be r 3]

/-- `key_refcnt_dec` (tree.c lines 714-725): the keys whose reference
count one node's visit decrements. -/
def keyRefcntDec (nd : MNode) : List MKey :=
  (match nd.left with | .data k => [k] | _ => []) ++
  (match nd.right with | .data k => [k] | _ => [])

/-- The three callbacks `iterate_tree` can be asked to run. -/
inductive CB where
  | assign : CB
  | encode : CB
  | decKeys : CB
deriving DecidableEq

/-- Iteration state: the pool (mutated by `assign_node_number`), the
`tree->node_count` counter, the bytes written to `output_fd`, the keys
decremented, and the already-seen handles in first-visit order (the
uthash `seen_nodes` set). -/
structure IterAcc where
  pool : Pool
  counter : Nat
  out : List Nat
  decs : List MKey
  seen : List Nat
deriving DecidableEq

/-- Effect of one callback invocation on node `idx`
(`assign_node_number` tree.c lines 690-694; `encode_node` 578-600;
`key_refcnt_dec` 714-725).  The encode arm fixes the build host to
little-endian, the platform this module is built on in practice; the
choice is unobservable in the embedded program because
`start_iteration` (line 648) never dispatches this callback. -/
def applyCB (cb : CB) (ctx : EncCtx) (a : IterAcc) (idx : Nat) : IterAcc :=
  match cb with
  | .assign => { a with pool := setNumber a.pool idx a.counter, counter := a.counter + 1 }
  | .encode => { a with out := a.out ++ encodeNodeBytes false ctx a.pool (getNode a.pool idx) }
  | .decKeys => { a with decs := a.decs ++ keyRefcntDec (getNode a.pool idx) }

/-- `iterate_tree` (tree.c lines 659-688): skip if seen, run the
callback, mark seen, recurse left then right into NODE records.  The C
recursion terminates because the seen set grows; the embedding carries
fuel, with `iterFuel` below proved sufficient. -/
def iterateTree (cb : CB) (ctx : EncCtx) : Nat → IterAcc → Nat → IterAcc
  | 0, a, _ => a
  | fuel + 1, a, idx =>
    if idx ∈ a.seen then a
    else
      let a1 := applyCB cb ctx a idx
      let a2 := { a1 with seen := a1.seen ++ [idx] }
      let a3 :=
        match (getNode a2.pool idx).left with
        | .node j => iterateTree cb ctx fuel a2 j
        | _ => a2
      match (getNode a3.pool idx).right with
      | .node j => iterateTree cb ctx fuel a3 j
      | _ => a3

/-- Fuel that always suffices for `iterateTree` (proved below): the
visited set can only ever contain the root and record targets. -/
def iterFuel (p : Pool) : Nat := 3 * p.length + 3

/-- `start_iteration` (tree.c lines 642-657).  Faithful to the source
bug: line 648 passes `&assign_node_number` to `iterate_tree` instead of
the `callback` parameter, so whatever callback the caller asked for,
node numbering is what runs. -/
def startIteration (t : MTree) (ctx : EncCtx) (_cb : CB) : IterAcc :=
  iterateTree .assign ctx (iterFuel t.pool) ⟨t.pool, t.nodeCount, [], [], []⟩ 0

/-- `assign_node_numbers` (tree.c lines 551-555): reset `node_count`,
then iterate with `assign_node_number`. -/
def assignNodeNumbers (t : MTree) : MTree :=
  let a := startIteration { t with nodeCount := 0 }
    ⟨t.recordSize, 0, fun _ => 0⟩ .assign
  { t with pool := a.pool, nodeCount := a.counter }

/-- `finalize_tree` (tree.c lines 540-549). -/
def finalizeTree (t : MTree) : MTree :=
  if t.isFinalized then t
  else { assignNodeNumbers t with isFinalized := true }

/-- `write_search_tree` (tree.c lines 557-576): finalize, then iterate
with `encode_node` — except that `start_iteration` dispatches
`assign_node_number`, so the numbering runs again (starting from the
current `node_count`!) and nothing is written.  Returns the tree and
the bytes that reached the sink. -/
def writeSearchTree (t : MTree) (posOf : MKey → Nat) : MTree × List Nat :=
  let t1 := finalizeTree t
  let a := startIteration t1 ⟨t1.recordSize, t1.nodeCount, posOf⟩ .encode
  ({ t1 with pool := a.pool, nodeCount := a.counter }, a.out)

/-- `free_tree` (tree.c lines 706-712): the keys whose reference counts
the teardown traversal decrements.  Again `start_iteration` dispatches
`assign_node_number` instead of `key_refcnt_dec`. -/
def freeTree (t : MTree) : List MKey :=
  (startIteration t ⟨t.recordSize, t.nodeCount, fun _ => 0⟩ .decKeys).decs

/-- The composition `free_tree` intends: `iterate_tree` (lines 659-688)
dispatching `key_refcnt_dec` (lines 714-725) over the DAG. -/
def freeTreeDecsIntended (t : MTree) : List MKey :=
  (iterateTree .decKeys ⟨t.recordSize, t.nodeCount, fun _ => 0⟩
    (iterFuel t.pool) ⟨t.pool, t.nodeCount, [], [], []⟩ 0).decs

/-- `new_node`'s allocation bookkeeping (tree.c lines 517-538), at byte
granularity: `next_node`, `allocated_nodes`, and the byte size that
`realloc(node_pool, nodes_per_alloc * node_size)` actually obtained. -/
structure AllocState where
  nextNode : Nat
  allocatedNodes : Nat
  capacityBytes : Nat
deriving DecidableEq, Repr

/-- Allocation state of a fresh tree (tree.c lines 83-85). -/
def allocInit : AllocState := ⟨0, 0, 0⟩

/-- One `new_node` call with `node_size = ns` and `nodes_per_alloc =
npa`: grow when `next_node >= allocated_nodes` (the realloc size is
always `nodes_per_alloc * node_size`, independent of how much was
already allocated), then return the node at
`(MMDBW_node_s *)node_pool + (next_node++ * node_size)` — pointer
arithmetic on `MMDBW_node_s *`, so the byte offset is
`next_node * node_size * node_size`. -/
def newNodeAlloc (ns npa : Nat) (s : AllocState) : AllocState × Nat :=
  let s1 := if s.allocatedNodes ≤ s.nextNode
            then { s with capacityBytes := npa * ns,
                          allocatedNodes := s.allocatedNodes + npa }
            else s
  ({ s1 with nextNode := s1.nextNode + 1 }, s1.nextNode * ns * ns)

/-- `j` is a child handle of `i`: one of `i`'s records is NODE(j). -/
def childOf (p : Pool) (i j : Nat) : Prop :=
  ∃ b, getSide (getNode p i) b = .node j

/-- Reachability through NODE records, used to state which nodes a
traversal from the root can visit. -/
inductive Reaches (p : Pool) : Nat → Nat → Prop
  | refl (i : Nat) : Reaches p i i
  | step {i j l : Nat} : Reaches p i j → childOf p j l → Reaches p i l

/-- `rk` witnesses that the NODE-record graph is acyclic (ranks strictly
decrease along edges).  Every tree the exported operations can build is
of this shape; the hypothesis rules out hand-crafted cyclic pools, on
which the C descent would not terminate. -/
def Ranked (p : Pool) (rk : Nat → Nat) : Prop :=
  ∀ i j, childOf p i j → rk j < rk i

/-- All NODE records point inside the pool (no dangling handles). -/
def Bounded (p : Pool) : Prop :=
  ∀ i j, childOf p i j → j < p.length

/-- Two byte vectors agree on their top `c` bits (bit positions `d0`
down to `d0 - c + 1`), i.e. one network's prefix of length `c` covers
the other's. -/
def agreesOn (b1 b2 : List Nat) (d0 c : Nat) : Prop :=
  ∀ t, t < c → networkBit b1 d0 (d0 - t) = networkBit b2 d0 (d0 - t)

/-- The record the halt-descent from `(idx, cb)` with `n` remaining
steps ends up selecting (the record `tree_has_network` /
`lookup_ip_address` inspect). -/
def haltSel (p : Pool) (bytes : List Nat) (d0 idx cb n : Nat) : MRecord :=
  let fr := findGo false p bytes d0 idx cb n
  getSide (getNode p fr.2.1) (networkBit bytes d0 fr.2.2)

/-- How many leading bits of the inserted network determine where later
descents will find the inserted record: the full mask for a real
descent, one bit when the descent loop runs zero iterations (mask 1,
mask 0, or a wrapped `uint8_t` mask) and the final record lands in the
root. -/
def needAgree (d0 m : Nat) : Nat := if findSteps d0 m = 0 then 1 else m

/-- After a successful DATA insert, every halt-descent for a network
agreeing on the top `c` bits ends on DATA(k). -/
def DataHaltAt (p : Pool) (bytes : List Nat) (d0 c : Nat) (k : MKey) : Prop :=
  ∀ bytes2 m2, agreesOn bytes bytes2 d0 c → c ≤ m2 → m2 ≤ d0 + 1 →
    haltSel p bytes2 d0 0 d0 (findSteps d0 m2) = .data k

/-- `xs` lists consecutive node handles linked by NODE records along the
descent bits of `bytes` starting at `current_bit = cb`. -/
def spinePath (q : Pool) (bytes : List Nat) (d0 cb : Nat) (xs : List Nat) : Prop :=
  ∀ j, j + 1 < xs.length →
    getSide (getNode q (xs.getD j 0)) (networkBit bytes d0 (cb - j)) =
      .node (xs.getD (j + 1) 0)

/-- An interior node of the descent chain an insert materializes: the
side selected by descent bit `j` points at node `j + 1`. -/
def linkNode (bytes : List Nat) (d0 j : Nat) : MNode :=
  if networkBit bytes d0 (d0 - j) then ⟨.empty, .node (j + 1), 0⟩
  else ⟨.node (j + 1), .empty, 0⟩

/-- The final node of a freshly inserted chain: DATA(k) on side `b`. -/
def dataNode (b : Bool) (k : MKey) : MNode :=
  if b then ⟨.empty, .data k, 0⟩ else ⟨.data k, .empty, 0⟩

/-- The pool a single insert into a fresh tree produces: a chain of `S`
link nodes (S = number of descent iterations) ending in a DATA leaf. -/
def chainPool (bytes : List Nat) (d0 S : Nat) (k : MKey) : Pool :=
  (List.range S).map (linkNode bytes d0) ++ [dataNode (networkBit bytes d0 (d0 - S)) k]

/-- A materializing descent in progress on a fresh tree: `j` link nodes
followed by the still-empty node the descent currently sits on. -/
def growChain (bytes : List Nat) (d0 j : Nat) : Pool :=
  (List.range j).map (linkNode bytes d0) ++ [emptyMNode]

/-! ## Decidable checks for concrete pools -/

def recTargetOk (f : Nat → Bool) : MRecord → Bool
  | .node j => f j
  | _ => true

def checkEdges (p : Pool) (f : Nat → Nat → Bool) : Bool :=
  (List.range p.length).all (fun i =>
    recTargetOk (f i) (getSide (getNode p i) false) &&
    recTargetOk (f i) (getSide (getNode p i) true))

/-! ## Concrete trees used as claim evidence (moved with their claims) -/

def c3aTree : MTree :=
  ((insertNetwork 600 (newTree 4 24 1) ⟨[1, 0, 0, 0], 8, 31, 4⟩ [2] 3).getD none).getD
    (newTree 4 24 1)

def c3bTree : MTree := finalizeTree c3aTree

def c3cTree : MTree := (deleteNetwork 600 c3bTree ⟨[1, 0, 0, 0], 8, 31, 4⟩).getD c3bTree

def c5cTree : MTree :=
  ((insertNetwork 600 (newTree 4 24 1) ⟨[0, 0, 0, 0], 0, 31, 4⟩ [3] 4).getD none).getD
    (newTree 4 24 1)

def c5wTree : MTree :=
  ((insertNetwork 600 (newTree 4 24 1) ⟨[10, 0, 0, 0], 8, 31, 4⟩ [7] 9).getD none).getD
    (newTree 4 24 1)

def c6Base : MTree :=
  ((insertNetwork 600 (newTree 6 24 1) ⟨List.replicate 16 0, 100, 127, 6⟩ [65] 7).getD
    none).getD (newTree 6 24 1)

def c6Tree : MTree := aliasIpv4Networks c6Base

def c7wTree : MTree :=
  ((insertNetwork 600 (newTree 4 24 1) ⟨[5, 0, 0, 0], 8, 31, 4⟩ [4] 6).getD none).getD
    (newTree 4 24 1)

def c8Tree : MTree :=
  ((insertNetwork 600 (newTree 4 24 1) ⟨[9, 0, 0, 0], 8, 31, 4⟩ [2] 3).getD none).getD
    (newTree 4 24 1)

/-! ## Records-preserving pool updates and the target set -/

def RecordsEq (p q : Pool) : Prop :=
  ∀ i, (getNode p i).left = (getNode q i).left ∧ (getNode p i).right = (getNode q i).right

def recTargets : MRecord → Finset Nat
  | .node j => {j}
  | _ => ∅

def poolTargets (p : Pool) : Finset Nat :=
  p.foldr (fun nd s => recTargets nd.left ∪ recTargets nd.right ∪ s) ∅

/-! ## The `iterate_tree` + `assign_node_number` traversal, in general -/

/-- One optional child recursion of `iterate_tree`: recurse when the
record is NODE, otherwise leave the accumulator alone. -/
def iterOn (cb : CB) (ctx : EncCtx) (fuel : Nat) (b : IterAcc) : MRecord → IterAcc
  | .node j => iterateTree cb ctx fuel b j
  | _ => b

/-- The accumulator after the callback ran on `idx` and `idx` was marked
seen (the state both child recursions start from). -/
def iterEnter (cb : CB) (ctx : EncCtx) (a : IterAcc) (idx : Nat) : IterAcc :=
  { applyCB cb ctx a idx with seen := (applyCB cb ctx a idx).seen ++ [idx] }

/-- Everything one `iterate_tree` call started at `idx` guarantees about
how accumulator `c` extends accumulator `b`: the newly seen handles `Δ`,
the unchanged records/out/decs, the numbers written (`b.counter + t` for
the `t`-th newly seen handle), and that all new handles are reachable
from `idx` with their children visited. -/
def StepSpec (apool : Pool) (idx : Nat) (b c : IterAcc) (d : List Nat) : Prop :=
  c.seen = b.seen ++ d ∧
  c.seen.Nodup ∧
  c.counter = b.counter + d.length ∧
  c.out = b.out ∧
  c.decs = b.decs ∧
  c.pool.length = b.pool.length ∧
  RecordsEq c.pool b.pool ∧
  (∀ i, i ∉ d → (getNode c.pool i).number = (getNode b.pool i).number) ∧
  (∀ t, t < d.length → (getNode c.pool (d.getD t 0)).number = b.counter + t) ∧
  (∀ s ∈ d, Reaches apool idx s) ∧
  (∀ s ∈ d, ∀ j, childOf apool s j → j ∈ c.seen)

/-- The full specification of `iterate_tree` with `assign_node_number`
at a given fuel. -/
def AssignSpecAt (fuel : Nat) : Prop :=
  ∀ (ctx : EncCtx) (a : IterAcc) (idx : Nat),
    Bounded a.pool → idx < a.pool.length → a.seen.Nodup →
    (insert idx (poolTargets a.pool) \ a.seen.toFinset).card + 1 ≤ fuel →
    ∃ d : List Nat,
      StepSpec a.pool idx a (iterateTree .assign ctx fuel a idx) d ∧
      idx ∈ (iterateTree .assign ctx fuel a idx).seen ∧
      (idx ∉ a.seen → d.getD 0 0 = idx ∧ 0 < d.length)

/-! ## Closed forms of the pools fresh-tree inserts build -/

/-- The root after the sibling-merge saga has materialized a detached
chain: DATA(k) on side `s0` (the first insert), NODE(1) on the other. -/
def mixNode (s0 : Bool) (k : MKey) : MNode :=
  if s0 then ⟨.node 1, .data k, 0⟩ else ⟨.data k, .node 1, 0⟩

/-- The pool while the wrapped-mask (`mask_length = max_depth0 + 1`)
descent of the sibling-merge saga is materializing its chain below the
root of a one-insert tree: the decorated root, `j - 1` link nodes, and
the still-empty node the descent sits on (`1 ≤ j`). -/
def sagaPool (s0 : Bool) (k : MKey) (bs : List Nat) (d0 j : Nat) : Pool :=
  mixNode s0 k :: ((List.range (j - 1)).map (fun u => linkNode bs d0 (u + 1)) ++ [emptyMNode])

/-- The pool after the `mask_length = max_depth0 + 1` frame of the
sibling-merge saga has materialized its chain and written DATA(k) at
the deepest bit of the second sibling's address. -/
def sagaLeafPool (bs0 bs1 : List Nat) (d0 : Nat) (k : MKey) : Pool :=
  setSide (sagaPool (networkBit bs0 d0 d0) k bs1 d0 d0) d0 (networkBit bs1 d0 0) (.data k)

/-- The final pool of a mask-1 sibling pair insert: the unwinding frames
overwrite the root's second side with DATA(k), detaching the chain. -/
def sagaFinalPool (bs0 bs1 : List Nat) (d0 : Nat) (k : MKey) : Pool :=
  setSide (sagaLeafPool bs0 bs1 d0 k) 0 (networkBit bs1 d0 d0) (.data k)

/-! ## Theorems -/

/-! ## Basic pool lemmas -/

theorem length_setSide (p : Pool) (i : Nat) (b : Bool) (r : MRecord) :
    (setSide p i b r).length = p.length := by
  simp [setSide]

theorem getNode_eq_getElem (p : Pool) (i : Nat) :
    getNode p i = (p[i]?).getD emptyMNode := by
  simp [getNode, List.getD_eq_getElem?_getD]

theorem getNode_append_lt (p q : Pool) {j : Nat} (h : j < p.length) :
    getNode (p ++ q) j = getNode p j := by
  simp [getNode_eq_getElem, List.getElem?_append_left h]

theorem getNode_append_self (p : Pool) (nd : MNode) :
    getNode (p ++ [nd]) p.length = nd := by
  simp [getNode_eq_getElem]

theorem getNode_of_length_le (p : Pool) {j : Nat} (h : p.length ≤ j) :
    getNode p j = emptyMNode := by
  simp [getNode_eq_getElem, List.getElem?_eq_none h]

theorem getNode_setSide (p : Pool) (i : Nat) (b : Bool) (r : MRecord) (i' : Nat) :
    getNode (setSide p i b r) i' =
      if i' = i ∧ i < p.length then
        (if b then { getNode p i with right := r } else { getNode p i with left := r })
      else getNode p i' := by
  by_cases hi : i' = i
  · subst hi
    by_cases hl : i' < p.length
    · simp [setSide, getNode_eq_getElem, List.getElem?_set_self, hl]
    · simp [setSide, getNode_eq_getElem, hl, List.set_eq_of_length_le (Nat.le_of_not_lt hl)]
  · simp [setSide, getNode_eq_getElem, hi, List.getElem?_set_ne (fun h => hi h.symm)]

theorem getSide_setSide (p : Pool) (i : Nat) (b : Bool) (r : MRecord) (i' : Nat) (b' : Bool) :
    getSide (getNode (setSide p i b r) i') b' =
      if i' = i ∧ b' = b ∧ i < p.length then r
      else getSide (getNode p i') b' := by
  rw [getNode_setSide]
  by_cases hi : i' = i
  · by_cases hl : i < p.length
    · by_cases hb : b' = b
      · subst hb; cases b' <;> simp [hi, hl, getSide]
      · cases b' <;> cases b <;> simp_all [getSide]
    · simp [hi, hl]
  · simp [hi]

theorem getNumber_setSide (p : Pool) (i : Nat) (b : Bool) (r : MRecord) (i' : Nat) :
    (getNode (setSide p i b r) i').number = (getNode p i').number := by
  rw [getNode_setSide]
  split
  · rename_i h
    cases b <;> simp [h.1]
  · rfl

/-! ## Halt-descent lemmas -/

theorem findGo_false_pool (p : Pool) (bytes : List Nat) (d0 : Nat) :
    ∀ (n idx cb : Nat), (findGo false p bytes d0 idx cb n).1 = p := by
  intro n
  induction n with
  | zero => intro idx cb; rfl
  | succ n ih =>
    intro idx cb
    rw [findGo]
    cases h : getSide (getNode p idx) (networkBit bytes d0 cb) <;> simp [h, ih]

theorem findNodeForNetwork_false_pool (p : Pool) (nw : MNetwork) :
    (findNodeForNetwork false p nw).1 = p :=
  findGo_false_pool p nw.bytes nw.maxDepth0 _ 0 nw.maxDepth0

theorem makeNextNode_no_node (r : MRecord) (b : Bool) (j : Nat) :
    getSide (makeNextNode r) b ≠ .node j := by
  cases r <;> cases b <;> simp [makeNextNode, getSide, emptyMNode]

/-- A halt-descent that starts on a spine of NODE records follows it. -/
theorem findGo_false_follow (q : Pool) (bytes : List Nat) (d0 : Nat) :
    ∀ (n : Nat) (xs : List Nat) (idx cb n2 : Nat),
      spinePath q bytes d0 cb xs → xs.length = n + 1 → xs.getD 0 0 = idx → n ≤ n2 →
      findGo false q bytes d0 idx cb n2 =
        findGo false q bytes d0 (xs.getD n 0) (cb - n) (n2 - n) := by
  intro n
  induction n with
  | zero =>
    intro xs idx cb n2 _ _ h0 _
    simp only [Nat.sub_zero, h0]
  | succ n ih =>
    intro xs idx cb n2 hsp hlen h0 hle
    match xs, hlen with
    | a :: xs, hlen =>
    have hlen' : xs.length = n + 1 := by simpa using hlen
    have h0' : a = idx := by simpa using h0
    have h1 : getSide (getNode q idx) (networkBit bytes d0 cb) = .node (xs.getD 0 0) := by
      have := hsp 0 (by simp [hlen'])
      simp at this
      rw [h0'] at this
      simpa using this
    obtain ⟨n2', rfl⟩ : ∃ n2', n2 = n2' + 1 := ⟨n2 - 1, by omega⟩
    have htail : spinePath q bytes d0 (cb - 1) xs := by
      intro j hj
      have := hsp (j + 1) (by simpa using Nat.succ_lt_succ hj)
      simpa [Nat.sub_sub, Nat.add_comm 1 j] using this
    have := ih xs (xs.getD 0 0) (cb - 1) n2' htail hlen' rfl (by omega)
    rw [findGo, h1]
    simp only []
    rw [this]
    congr 1
    · simp [Nat.sub_sub, Nat.add_comm 1 n]
    · omega

/-- When the descent lands on a DATA record it halts there and that
record is what gets selected. -/
theorem haltSel_of_data (p : Pool) (bytes : List Nat) (d0 : Nat) (idx cb : Nat) (k : MKey)
    (h : getSide (getNode p idx) (networkBit bytes d0 cb) = .data k) :
    ∀ n, haltSel p bytes d0 idx cb n = .data k := by
  intro n
  cases n with
  | zero => simpa [haltSel, findGo]
  | succ n =>
    rw [haltSel, findGo, h]
    simpa [haltSel]

/-! ## Materializing descent -/

theorem empty_getSide (s : Bool) : getSide emptyMNode s = .empty := by
  cases s <;> rfl

theorem no_child_of_length_le (p : Pool) {i : Nat} (h : p.length ≤ i) (s : Bool) (j : Nat) :
    getSide (getNode p i) s ≠ .node j := by
  rw [getNode_of_length_le p h, empty_getSide]
  simp

theorem bounded_matStep {p : Pool} (hb : Bounded p) (idx : Nat) (b : Bool) (r : MRecord) :
    Bounded (setSide (p ++ [makeNextNode r]) idx b (.node p.length)) := by
  intro i j hij
  obtain ⟨s, hs⟩ := hij
  rw [getSide_setSide] at hs
  rw [length_setSide, List.length_append, List.length_singleton]
  split at hs
  · cases hs; omega
  · by_cases hi : i < p.length
    · rw [getNode_append_lt _ _ hi] at hs
      have := hb i j ⟨s, hs⟩
      omega
    · by_cases hieq : i = p.length
      · subst hieq
        rw [getNode_append_self] at hs
        exact absurd hs (makeNextNode_no_node r s j)
      · exfalso
        refine no_child_of_length_le (p ++ [makeNextNode r]) ?_ s j hs
        simp only [List.length_append, List.length_singleton]
        omega

theorem ranked_matStep {p : Pool} {rk : Nat → Nat} (hrk : Ranked p rk)
    {idx : Nat} (hidx : idx < p.length) (b : Bool) (r : MRecord) :
    Ranked (setSide (p ++ [makeNextNode r]) idx b (.node p.length))
      (fun i => if i = p.length then 0 else rk i + 1) := by
  intro i j hij
  obtain ⟨s, hs⟩ := hij
  rw [getSide_setSide] at hs
  split at hs
  · rename_i hcond
    cases hs
    have hne : i ≠ p.length := by
      have h1 := hcond.1
      omega
    show (if p.length = p.length then 0 else rk p.length + 1) <
      (if i = p.length then 0 else rk i + 1)
    rw [if_pos rfl, if_neg hne]
    omega
  · by_cases hi : i < p.length
    · rw [getNode_append_lt _ _ hi] at hs
      have hlt := hrk i j ⟨s, hs⟩
      by_cases hj : j = p.length
      · simp only [if_pos hj, if_neg (by omega : i ≠ p.length)]
        omega
      · simp only [if_neg hj, if_neg (by omega : i ≠ p.length)]
        omega
    · by_cases hieq : i = p.length
      · subst hieq
        rw [getNode_append_self] at hs
        exact absurd hs (makeNextNode_no_node r s j)
      · exfalso
        refine no_child_of_length_le (p ++ [makeNextNode r]) ?_ s j hs
        simp only [List.length_append, List.length_singleton]
        omega

theorem nodeSlot_matStep {p : Pool} {idx : Nat} {b : Bool} {r : MRecord}
    (hr : getSide (getNode p idx) b = r) (hnot : ∀ j, r ≠ .node j) :
    ∀ i s j, getSide (getNode p i) s = .node j →
      getSide (getNode (setSide (p ++ [makeNextNode r]) idx b (.node p.length)) i) s =
        .node j := by
  intro i s j h
  rw [getSide_setSide]
  split
  · rename_i hcond
    exfalso
    obtain ⟨hi, hsb, _⟩ := hcond
    subst hi; subst hsb
    rw [h] at hr
    exact hnot j hr.symm
  · have hi : i < p.length := by
      by_contra hge
      exact no_child_of_length_le p (Nat.le_of_not_lt hge) s j h
    rw [getNode_append_lt _ _ hi]
    exact h

/-- The materializing descent: result `current_bit`, pool growth,
boundedness, NODE-slot persistence, acyclicity preservation, and the
spine of NODE records it leaves behind. -/
theorem findGo_mat (bytes : List Nat) (d0 : Nat) :
    ∀ (n : Nat) (p : Pool) (idx cb : Nat),
      Bounded p → idx < p.length →
      ∃ p' x cb' xs,
        findGo true p bytes d0 idx cb n = (p', x, cb') ∧
        cb' = cb - n ∧
        p.length ≤ p'.length ∧
        Bounded p' ∧
        x < p'.length ∧
        (∀ i s j, getSide (getNode p i) s = .node j →
          getSide (getNode p' i) s = .node j) ∧
        (∀ rk, Ranked p rk → ∃ rk', Ranked p' rk') ∧
        xs.length = n + 1 ∧ xs.getD 0 0 = idx ∧ xs.getD n 0 = x ∧
        spinePath p' bytes d0 cb xs ∧
        (∀ j, j ≤ n → xs.getD j 0 < p'.length) := by
  intro n
  induction n with
  | zero =>
    intro p idx cb hb hidx
    refine ⟨p, idx, cb, [idx], rfl, by omega, le_refl _, hb, hidx, fun _ _ _ h => h,
      fun rk hrk => ⟨rk, hrk⟩, rfl, rfl, rfl, ?_, ?_⟩
    · intro j hj
      simp at hj
    · intro j hj
      interval_cases j
      simpa using hidx
  | succ n ih =>
    intro p idx cb hb hidx
    cases h : getSide (getNode p idx) (networkBit bytes d0 cb) with
    | node j =>
      have hj : j < p.length := hb idx j ⟨_, h⟩
      obtain ⟨p', x, cb', xs, heq, hcb, hlen, hb', hx, hpers, hrank, hxs, hx0, hxn, hsp, hbnd⟩ :=
        ih p j (cb - 1) hb hj
      refine ⟨p', x, cb', idx :: xs, ?_, by omega, hlen, hb', hx, hpers, hrank,
        by simpa using hxs, by simp, ?_, ?_, ?_⟩
      · rw [findGo, h]
        exact heq
      · simpa [hxs] using hxn
      · intro t ht
        cases t with
        | zero =>
          simp only [List.getD_cons_zero, List.getD_cons_succ, Nat.sub_zero]
          rw [hpers idx _ j h]
          rw [hx0]
        | succ t =>
          simp only [List.getD_cons_succ]
          have := hsp t (by simpa using Nat.lt_of_succ_lt_succ ht)
          simpa [Nat.sub_sub, Nat.add_comm 1 t] using this
      · intro t ht
        cases t with
        | zero => simpa using Nat.lt_of_lt_of_le hidx hlen
        | succ t =>
          simp only [List.getD_cons_succ]
          exact hbnd t (by omega)
    | empty =>
      have hb1 : Bounded (setSide (p ++ [makeNextNode .empty]) idx
          (networkBit bytes d0 cb) (.node p.length)) := bounded_matStep hb idx _ _
      have hl1 : (setSide (p ++ [makeNextNode .empty]) idx
          (networkBit bytes d0 cb) (.node p.length)).length = p.length + 1 := by
        rw [length_setSide]; simp
      obtain ⟨p', x, cb', xs, heq, hcb, hlen, hb', hx, hpers, hrank, hxs, hx0, hxn, hsp, hbnd⟩ :=
        ih _ p.length (cb - 1) hb1 (by omega)
      have hstep : ∀ i s j, getSide (getNode p i) s = .node j →
          getSide (getNode (setSide (p ++ [makeNextNode .empty]) idx
            (networkBit bytes d0 cb) (.node p.length)) i) s = .node j :=
        nodeSlot_matStep h (by simp)
      refine ⟨p', x, cb', idx :: xs, ?_, by omega, by omega, hb', hx,
        fun i s j hij => hpers i s j (hstep i s j hij), ?_,
        by simpa using hxs, by simp, by simpa [hxs] using hxn, ?_, ?_⟩
      · rw [findGo, h]
        exact heq
      · intro rk hrk
        exact hrank _ (ranked_matStep hrk hidx _ _)
      · intro t ht
        cases t with
        | zero =>
          simp only [List.getD_cons_zero, List.getD_cons_succ, Nat.sub_zero]
          rw [hpers idx _ p.length ?slot]
          · rw [hx0]
          case slot =>
            rw [getSide_setSide,
              if_pos ⟨rfl, rfl, by simp only [List.length_append, List.length_singleton]; omega⟩]
        | succ t =>
          simp only [List.getD_cons_succ]
          have := hsp t (by simpa using Nat.lt_of_succ_lt_succ ht)
          simpa [Nat.sub_sub, Nat.add_comm 1 t] using this
      · intro t ht
        cases t with
        | zero =>
          simp only [List.getD_cons_zero]
          omega
        | succ t =>
          simp only [List.getD_cons_succ]
          exact hbnd t (by omega)
    | data kk =>
      have hb1 : Bounded (setSide (p ++ [makeNextNode (.data kk)]) idx
          (networkBit bytes d0 cb) (.node p.length)) := bounded_matStep hb idx _ _
      have hl1 : (setSide (p ++ [makeNextNode (.data kk)]) idx
          (networkBit bytes d0 cb) (.node p.length)).length = p.length + 1 := by
        rw [length_setSide]; simp
      obtain ⟨p', x, cb', xs, heq, hcb, hlen, hb', hx, hpers, hrank, hxs, hx0, hxn, hsp, hbnd⟩ :=
        ih _ p.length (cb - 1) hb1 (by omega)
      have hstep : ∀ i s j, getSide (getNode p i) s = .node j →
          getSide (getNode (setSide (p ++ [makeNextNode (.data kk)]) idx
            (networkBit bytes d0 cb) (.node p.length)) i) s = .node j :=
        nodeSlot_matStep h (by simp)
      refine ⟨p', x, cb', idx :: xs, ?_, by omega, by omega, hb', hx,
        fun i s j hij => hpers i s j (hstep i s j hij), ?_,
        by simpa using hxs, by simp, by simpa [hxs] using hxn, ?_, ?_⟩
      · rw [findGo, h]
        exact heq
      · intro rk hrk
        exact hrank _ (ranked_matStep hrk hidx _ _)
      · intro t ht
        cases t with
        | zero =>
          simp only [List.getD_cons_zero, List.getD_cons_succ, Nat.sub_zero]
          rw [hpers idx _ p.length ?slot]
          · rw [hx0]
          case slot =>
            rw [getSide_setSide,
              if_pos ⟨rfl, rfl, by simp only [List.length_append, List.length_singleton]; omega⟩]
        | succ t =>
          simp only [List.getD_cons_succ]
          have := hsp t (by simpa using Nat.lt_of_succ_lt_succ ht)
          simpa [Nat.sub_sub, Nat.add_comm 1 t] using this
      · intro t ht
        cases t with
        | zero =>
          simp only [List.getD_cons_zero]
          omega
        | succ t =>
          simp only [List.getD_cons_succ]
          exact hbnd t (by omega)

/-! ## Halt selection: unfolding and robustness -/

theorem haltSel_zero (p : Pool) (bytes : List Nat) (d0 idx cb : Nat) :
    haltSel p bytes d0 idx cb 0 = getSide (getNode p idx) (networkBit bytes d0 cb) := rfl

theorem haltSel_succ_node (p : Pool) (bytes : List Nat) (d0 idx cb n : Nat) {j : Nat}
    (h : getSide (getNode p idx) (networkBit bytes d0 cb) = .node j) :
    haltSel p bytes d0 idx cb (n + 1) = haltSel p bytes d0 j (cb - 1) n := by
  rw [haltSel, haltSel, findGo, h]

theorem haltSel_succ_halt (p : Pool) (bytes : List Nat) (d0 idx cb n : Nat)
    (h : ∀ j, getSide (getNode p idx) (networkBit bytes d0 cb) ≠ .node j) :
    haltSel p bytes d0 idx cb (n + 1) =
      getSide (getNode p idx) (networkBit bytes d0 cb) := by
  rw [haltSel, findGo]
  cases hr : getSide (getNode p idx) (networkBit bytes d0 cb) with
  | node j => exact absurd hr (h j)
  | empty => simp [haltSel, hr]
  | data k => simp [haltSel, hr]

/-- Writing DATA(k) anywhere preserves "the halt-descent ends on
DATA(k)": the write either leaves the descent path alone or makes it
halt earlier, on the very record just written. -/
theorem haltSel_write_data (p : Pool) (bytes2 : List Nat) (d0 : Nat) (y : Nat) (bb : Bool)
    (k : MKey) : ∀ (n idx cb : Nat), haltSel p bytes2 d0 idx cb n = .data k →
      haltSel (setSide p y bb (.data k)) bytes2 d0 idx cb n = .data k := by
  intro n
  induction n with
  | zero =>
    intro idx cb h
    rw [haltSel_zero] at h ⊢
    rw [getSide_setSide]
    split
    · rfl
    · exact h
  | succ n ih =>
    intro idx cb h
    by_cases hw : idx = y ∧ networkBit bytes2 d0 cb = bb ∧ y < p.length
    · have hslot : getSide (getNode (setSide p y bb (.data k)) idx)
          (networkBit bytes2 d0 cb) = .data k := by
        rw [getSide_setSide, if_pos hw]
      rw [haltSel_succ_halt _ _ _ _ _ _ (by rw [hslot]; simp)]
      exact hslot
    · have hslot : getSide (getNode (setSide p y bb (.data k)) idx)
          (networkBit bytes2 d0 cb) = getSide (getNode p idx) (networkBit bytes2 d0 cb) := by
        rw [getSide_setSide, if_neg hw]
      cases hrec : getSide (getNode p idx) (networkBit bytes2 d0 cb) with
      | node j =>
        rw [haltSel_succ_node _ _ _ _ _ _ hrec] at h
        rw [haltSel_succ_node _ _ _ _ _ _ (hslot.trans hrec)]
        exact ih _ _ h
      | empty =>
        rw [haltSel_succ_halt _ _ _ _ _ _ (by rw [hrec]; simp), hrec] at h
        exact absurd h (by simp)
      | data k' =>
        rw [haltSel_succ_halt _ _ _ _ _ _ (by rw [hrec]; simp), hrec] at h
        rw [haltSel_succ_halt _ _ _ _ _ _ (by rw [hslot, hrec]; simp), hslot, hrec]
        exact h

/-- Ranks strictly decrease along a spine, so spine nodes are distinct. -/
theorem spine_rank (q : Pool) (bytes : List Nat) (d0 cb : Nat) (xs : List Nat)
    (rk : Nat → Nat) (hsp : spinePath q bytes d0 cb xs) (hrk : Ranked q rk) :
    ∀ (d i : Nat), 0 < d → i + d < xs.length → rk (xs.getD (i + d) 0) < rk (xs.getD i 0) := by
  intro d
  induction d with
  | zero => intro i h0 _; omega
  | succ d ih =>
    intro i _ hlen
    cases Nat.eq_zero_or_pos d with
    | inl hd =>
      subst hd
      exact hrk _ _ ⟨_, hsp i (by omega)⟩
    | inr hd =>
      have h1 : rk (xs.getD (i + d + 1) 0) < rk (xs.getD (i + d) 0) :=
        hrk _ _ ⟨_, hsp (i + d) (by omega)⟩
      have h2 := ih i hd (by omega)
      have : i + (d + 1) = i + d + 1 := by omega
      rw [this]
      omega

/-! ## Arithmetic of `last_bit` and the descent step count -/

theorem lastBit_eq (d0 m : Nat) (h2 : m ≤ d0 + 1) (hd : d0 ≤ 254) :
    lastBit d0 m = d0 + 1 - m := by
  rw [lastBit]
  have he : ((d0 : Int) + 1 - m) % 256 = (d0 : Int) + 1 - m :=
    Int.emod_eq_of_lt (by omega) (by omega)
  rw [he]
  omega

theorem findSteps_eq_of_le (d0 m : Nat) (h1 : 1 ≤ m) (h2 : m ≤ d0 + 1) (hd : d0 ≤ 254) :
    findSteps d0 m = m - 1 := by
  rw [findSteps, lastBit_eq d0 m h2 hd]
  omega

theorem findSteps_zero_of_m_zero (d0 : Nat) (hd : d0 ≤ 254) : findSteps d0 0 = 0 := by
  rw [findSteps, lastBit_eq d0 0 (by omega) hd]
  omega

theorem needAgree_of_steps_zero (d0 m : Nat) (h : findSteps d0 m = 0) :
    needAgree d0 m = 1 := by
  rw [needAgree, if_pos h]

theorem needAgree_of_steps_pos (d0 m : Nat) (h : findSteps d0 m ≠ 0) :
    needAgree d0 m = m := by
  rw [needAgree, if_neg h]

theorem one_le_m_of_steps_pos (d0 m : Nat) (hd : d0 ≤ 254) (h : findSteps d0 m ≠ 0) :
    1 ≤ m := by
  by_contra hm
  exact h (by rw [Nat.eq_zero_of_not_pos (by omega : ¬ 0 < m)]; exact findSteps_zero_of_m_zero d0 hd)

theorem mask_dec_le (m : Nat) (h1 : 1 ≤ m) : (m + 255) % 256 ≤ m := by
  omega

theorem needAgree_le (d0 m : Nat) (h1 : 1 ≤ m) : needAgree d0 ((m + 255) % 256) ≤ m := by
  rw [needAgree]
  split
  · exact h1
  · exact mask_dec_le m h1

/-! ## Writes of non-NODE records preserve well-formedness -/

theorem bounded_setSide_nonNode {p : Pool} {r : MRecord} (hr : ∀ j, r ≠ .node j)
    (hb : Bounded p) (y : Nat) (b : Bool) : Bounded (setSide p y b r) := by
  intro i j hij
  obtain ⟨s, hs⟩ := hij
  rw [getSide_setSide] at hs
  rw [length_setSide]
  split at hs
  · exact absurd hs (hr j)
  · exact hb i j ⟨s, hs⟩

theorem ranked_setSide_nonNode {p : Pool} {r : MRecord} {rk : Nat → Nat}
    (hr : ∀ j, r ≠ .node j) (hrk : Ranked p rk) (y : Nat) (b : Bool) :
    Ranked (setSide p y b r) rk := by
  intro i j hij
  obtain ⟨s, hs⟩ := hij
  rw [getSide_setSide] at hs
  split at hs
  · exact absurd hs (hr j)
  · exact hrk i j ⟨s, hs⟩

theorem haltSel_congr (p : Pool) (bytes : List Nat) (d0 : Nat) {i1 c1 n1 i2 c2 n2 : Nat}
    (h : findGo false p bytes d0 i1 c1 n1 = findGo false p bytes d0 i2 c2 n2) :
    haltSel p bytes d0 i1 c1 n1 = haltSel p bytes d0 i2 c2 n2 := by
  rw [haltSel, haltSel, h]

/-! ## The two ways an insert's final write fixes later descents -/

/-- Zero-iteration descents (mask 0, mask 1, wrapped masks): the final
write lands in the root at the top-bit side, and any later descent for
a network agreeing on the top bit halts on it. -/
theorem dataHalt_write_zero (p2 : Pool) (bytes : List Nat) (d0 : Nat) (k : MKey)
    (h0 : 0 < p2.length) :
    DataHaltAt (setSide p2 0 (networkBit bytes d0 d0) (.data k)) bytes d0 1 k := by
  intro bytes2 m2 hag _ _
  have hbit : networkBit bytes2 d0 (d0 - 0) = networkBit bytes d0 (d0 - 0) :=
    (hag 0 (by omega)).symm
  refine haltSel_of_data _ _ _ _ _ _ ?_ _
  simp only [Nat.sub_zero] at hbit
  rw [hbit, getSide_setSide, if_pos ⟨rfl, rfl, h0⟩]

/-- Real descents: the materialized spine carries any later descent for
an agreeing network to the written DATA record. -/
theorem dataHalt_spine (p1 : Pool) (bytes : List Nat) (d0 m : Nat) (k : MKey)
    (xs : List Nat) (x : Nat) (rk : Nat → Nat)
    (hd : d0 ≤ 254) (hm1 : 1 ≤ m) (hS : findSteps d0 m ≠ 0)
    (hrk : Ranked p1 rk) (hxs : xs.length = findSteps d0 m + 1) (hx0 : xs.getD 0 0 = 0)
    (hxn : xs.getD (findSteps d0 m) 0 = x) (hsp : spinePath p1 bytes d0 d0 xs)
    (hx1 : x < p1.length) :
    DataHaltAt (setSide p1 x (networkBit bytes d0 (d0 - findSteps d0 m)) (.data k))
      bytes d0 m k := by
  intro bytes2 m2 hag hm2 hd2
  by_cases hm : m ≤ d0 + 1
  swap
  · omega
  have hSm : findSteps d0 m = m - 1 := findSteps_eq_of_le d0 m hm1 hm hd
  have hsteps2 : findSteps d0 m2 = m2 - 1 :=
    findSteps_eq_of_le d0 m2 (by omega) hd2 hd
  have hS2 : findSteps d0 m ≤ findSteps d0 m2 := by omega
  have hne : ∀ j, j < findSteps d0 m → xs.getD j 0 ≠ x := by
    intro j hj heq
    have := spine_rank p1 bytes d0 d0 xs rk hsp hrk (findSteps d0 m - j) j
      (by omega) (by omega)
    rw [show j + (findSteps d0 m - j) = findSteps d0 m by omega, hxn, heq] at this
    exact absurd this (lt_irrefl _)
  have hsp' : spinePath (setSide p1 x (networkBit bytes d0 (d0 - findSteps d0 m)) (.data k))
      bytes2 d0 d0 xs := by
    intro j hj
    have hjS : j < findSteps d0 m := by omega
    have hbitj : networkBit bytes2 d0 (d0 - j) = networkBit bytes d0 (d0 - j) :=
      (hag j (by omega)).symm
    rw [hbitj, getSide_setSide, if_neg (fun hcond => hne j hjS hcond.1)]
    exact hsp j hj
  have hfollow := findGo_false_follow
    (setSide p1 x (networkBit bytes d0 (d0 - findSteps d0 m)) (.data k)) bytes2 d0
    (findSteps d0 m) xs 0 d0 (findSteps d0 m2) hsp' (by omega) hx0 hS2
  rw [hxn] at hfollow
  rw [haltSel_congr _ _ _ hfollow]
  have hbitS : networkBit bytes2 d0 (d0 - findSteps d0 m) =
      networkBit bytes d0 (d0 - findSteps d0 m) :=
    (hag (findSteps d0 m) (by omega)).symm
  refine haltSel_of_data _ _ _ _ _ _ ?_ _
  rw [hbitS, getSide_setSide, if_pos ⟨rfl, rfl, hx1⟩]

theorem insertRecord_succ_rfl (p : Pool) (nw : MNetwork) (newRec : MRecord) (fuel : Nat) :
    insertRecordForNetwork p nw newRec (fuel + 1) =
      (match newRec,
          getSide (getNode (findNodeForNetwork true p nw).1 (findNodeForNetwork true p nw).2.1)
            (!networkBit nw.bytes nw.maxDepth0 (findNodeForNetwork true p nw).2.2) with
        | .data kn, .data ko =>
          if kn = ko then
            insertRecordForNetwork (findNodeForNetwork true p nw).1
              { nw with maskLength := (nw.maskLength + 255) % 256 } newRec fuel
          else some (findNodeForNetwork true p nw).1
        | _, _ => some (findNodeForNetwork true p nw).1).map
        (fun p2 => setSide p2 (findNodeForNetwork true p nw).2.1
          (networkBit nw.bytes nw.maxDepth0 (findNodeForNetwork true p nw).2.2) newRec) := rfl

/-- The sibling-merge test of tree.c lines 390-401 (the other record is
DATA and its key bytes `memcmp`-equal) is exactly "the other record is
DATA(k)". -/
theorem insertRecord_succ_unfold (p : Pool) (nw : MNetwork) (k : MKey) (fuel : Nat)
    (p1 : Pool) (x cb : Nat) (hfr : findNodeForNetwork true p nw = (p1, x, cb)) :
    insertRecordForNetwork p nw (.data k) (fuel + 1) =
      (if getSide (getNode p1 x) (!networkBit nw.bytes nw.maxDepth0 cb) = .data k then
        insertRecordForNetwork p1 { nw with maskLength := (nw.maskLength + 255) % 256 }
          (.data k) fuel
       else some p1).map
        (fun p2 => setSide p2 x (networkBit nw.bytes nw.maxDepth0 cb) (.data k)) := by
  rw [insertRecord_succ_rfl, hfr]
  cases ho : getSide (getNode p1 x) (!networkBit nw.bytes nw.maxDepth0 cb) with
  | empty => simp
  | node j => simp
  | data ko =>
    by_cases hk : k = ko
    · subst hk
      simp
    · have hne : ¬ko = k := fun h => hk h.symm
      simp [hk, hne]

/-- Main lemma about `insert_record_for_network` with a DATA record: the
pool stays bounded and acyclic, only grows, and afterwards every
halt-descent for a network covered by the inserted prefix selects
DATA(k). -/
theorem insertRecord_dataHalt :
    ∀ (fuel : Nat) (p : Pool) (nw : MNetwork) (k : MKey) (p' : Pool),
      Bounded p → (∃ rk, Ranked p rk) → 0 < p.length → nw.maxDepth0 ≤ 254 →
      insertRecordForNetwork p nw (.data k) fuel = some p' →
      Bounded p' ∧ (∃ rk', Ranked p' rk') ∧ p.length ≤ p'.length ∧
        DataHaltAt p' nw.bytes nw.maxDepth0 (needAgree nw.maxDepth0 nw.maskLength) k := by
  intro fuel
  induction fuel with
  | zero =>
    intro p nw k p' _ _ _ _ h
    exact absurd h (by simp [insertRecordForNetwork])
  | succ fuel ih =>
    intro p nw k p' hb hrk h0 hd h
    obtain ⟨p1, x, cb', xs, heq, hcb, hlen1, hb1, hx1, hpers, hrank1, hxs, hx0, hxn, hsp, hbnd⟩ :=
      findGo_mat nw.bytes nw.maxDepth0 (findSteps nw.maxDepth0 nw.maskLength) p 0
        nw.maxDepth0 hb h0
    have hfr : findNodeForNetwork true p nw = (p1, x, cb') := heq
    have hrk1 : ∃ rk, Ranked p1 rk := hrk.elim (fun rk hh => hrank1 rk hh)
    rw [insertRecord_succ_unfold p nw k fuel p1 x cb' hfr] at h
    by_cases hmerge : getSide (getNode p1 x) (!networkBit nw.bytes nw.maxDepth0 cb') = .data k
    · rw [if_pos hmerge] at h
      cases hrec : insertRecordForNetwork p1
          { nw with maskLength := (nw.maskLength + 255) % 256 } (.data k) fuel with
      | none =>
        rw [hrec] at h
        simp at h
      | some p2 =>
        rw [hrec] at h
        simp only [Option.map_some', Option.map_some, Option.some.injEq] at h
        obtain ⟨hb2, hrk2, hlen2, hdh2⟩ :=
          ih p1 { nw with maskLength := (nw.maskLength + 255) % 256 } k p2 hb1 hrk1
            (by omega) hd hrec
        subst h
        refine ⟨bounded_setSide_nonNode (by simp) hb2 _ _,
          hrk2.elim (fun rk2 hh => ⟨rk2, ranked_setSide_nonNode (by simp) hh _ _⟩),
          by rw [length_setSide]; omega, ?_⟩
        by_cases hS0 : findSteps nw.maxDepth0 nw.maskLength = 0
        · rw [needAgree_of_steps_zero _ _ hS0]
          have hx00 : x = 0 := by rw [← hxn, hS0, hx0]
          have hcb0 : cb' = nw.maxDepth0 := by omega
          subst hx00
          rw [hcb0]
          exact dataHalt_write_zero p2 nw.bytes nw.maxDepth0 k (by omega)
        · rw [needAgree_of_steps_pos _ _ hS0]
          have hm1 : 1 ≤ nw.maskLength := one_le_m_of_steps_pos _ _ hd hS0
          have hcle : needAgree nw.maxDepth0 ((nw.maskLength + 255) % 256) ≤ nw.maskLength :=
            needAgree_le _ _ hm1
          have hdh2' : DataHaltAt p2 nw.bytes nw.maxDepth0
              (needAgree nw.maxDepth0 ((nw.maskLength + 255) % 256)) k := hdh2
          intro bytes2 m2 hag hm2 hd2
          refine haltSel_write_data p2 bytes2 nw.maxDepth0 x
            (networkBit nw.bytes nw.maxDepth0 cb') k _ 0 nw.maxDepth0 ?_
          exact hdh2' bytes2 m2 (fun t ht => hag t (by omega)) (by omega) hd2
    · rw [if_neg hmerge] at h
      simp only [Option.map_some', Option.map_some, Option.some.injEq] at h
      subst h
      refine ⟨bounded_setSide_nonNode (by simp) hb1 _ _,
        hrk1.elim (fun rk1 hh => ⟨rk1, ranked_setSide_nonNode (by simp) hh _ _⟩),
        by rw [length_setSide]; omega, ?_⟩
      by_cases hS0 : findSteps nw.maxDepth0 nw.maskLength = 0
      · rw [needAgree_of_steps_zero _ _ hS0]
        have hx00 : x = 0 := by rw [← hxn, hS0, hx0]
        have hcb0 : cb' = nw.maxDepth0 := by omega
        subst hx00
        rw [hcb0]
        exact dataHalt_write_zero p1 nw.bytes nw.maxDepth0 k (by omega)
      · rw [needAgree_of_steps_pos _ _ hS0]
        obtain ⟨rk1, hrk1'⟩ := hrk1
        have hcbS : cb' = nw.maxDepth0 - findSteps nw.maxDepth0 nw.maskLength := hcb
        rw [hcbS]
        exact dataHalt_spine p1 nw.bytes nw.maxDepth0 nw.maskLength k xs x rk1 hd
          (one_le_m_of_steps_pos _ _ hd hS0) hS0 hrk1' hxs hx0 hxn hsp hx1

/-! ## Bridging the tree-level operations to `haltSel` -/

theorem treeHasNetwork_eq (t : MTree) (nw : MNetwork) :
    treeHasNetwork t nw =
      (match haltSel t.pool nw.bytes nw.maxDepth0 0 nw.maxDepth0
          (findSteps nw.maxDepth0 nw.maskLength) with
       | .empty => false
       | _ => true) := rfl

theorem lookupIpAddress_eq (t : MTree) (addr : List Nat) :
    lookupIpAddress t addr =
      (match haltSel t.pool addr (if t.ipVersion = 6 then 127 else 31) 0
          (if t.ipVersion = 6 then 127 else 31)
          (findSteps (if t.ipVersion = 6 then 127 else 31)
            ((if t.ipVersion = 6 then 127 else 31) + 1)) with
       | .node _ => none
       | .empty => some none
       | .data k => some (dataForKey t.dataHash k)) := rfl

theorem dataForKey_hvStore (h : List (MKey × Nat)) (k : MKey) (v : Nat) :
    dataForKey (hvStore h k v) k = some v := by
  induction h with
  | nil => simp [hvStore, dataForKey]
  | cons kv rest ih =>
    obtain ⟨k', v'⟩ := kv
    by_cases hk : k' = k <;> simp [hvStore, dataForKey, hk, ih]

theorem needAgree_le_self (d0 m : Nat) (hm1 : 1 ≤ m) : needAgree d0 m ≤ m := by
  rw [needAgree]
  split
  · exact hm1
  · exact le_refl m

theorem insertNetwork_some (fuel : Nat) (t : MTree) (nw : MNetwork) (k : MKey) (v : Nat)
    (t' : MTree) (h : insertNetwork fuel t nw k v = some (some t')) :
    ∃ p, insertRecordForNetwork t.pool nw (.data k) fuel = some p ∧
      t' = { t with dataHash := hvStore t.dataHash k v, pool := p, isFinalized := false } := by
  rw [insertNetwork] at h
  split at h
  · simp at h
  · cases hrec : insertRecordForNetwork t.pool nw (.data k) fuel with
    | none => rw [hrec] at h; simp at h
    | some p =>
      rw [hrec] at h
      simp only [Option.some.injEq] at h
      exact ⟨p, rfl, h.symm⟩

theorem haltSel_of_nonNode (p : Pool) (bytes : List Nat) (d0 idx cb : Nat)
    (h : ∀ j, getSide (getNode p idx) (networkBit bytes d0 cb) ≠ .node j) :
    ∀ n, haltSel p bytes d0 idx cb n = getSide (getNode p idx) (networkBit bytes d0 cb) := by
  intro n
  cases n with
  | zero => rfl
  | succ n => exact haltSel_succ_halt p bytes d0 idx cb n h

/-- After writing any non-NODE record at the end of the spine, the
halt-descent for the same network with the same step count selects it. -/
theorem haltSel_setSide_spine (p1 : Pool) (bytes : List Nat) (d0 S : Nat) (r : MRecord)
    (xs : List Nat) (x : Nat) (rk : Nat → Nat)
    (hrk : Ranked p1 rk) (hxs : xs.length = S + 1) (hx0 : xs.getD 0 0 = 0)
    (hxn : xs.getD S 0 = x) (hsp : spinePath p1 bytes d0 d0 xs)
    (hx1 : x < p1.length) :
    haltSel (setSide p1 x (networkBit bytes d0 (d0 - S)) r) bytes d0 0 d0 S = r := by
  have hne : ∀ j, j < S → xs.getD j 0 ≠ x := by
    intro j hj heq
    have := spine_rank p1 bytes d0 d0 xs rk hsp hrk (S - j) j (by omega) (by omega)
    rw [show j + (S - j) = S by omega, hxn, heq] at this
    exact absurd this (lt_irrefl _)
  have hsp' : spinePath (setSide p1 x (networkBit bytes d0 (d0 - S)) r) bytes d0 d0 xs := by
    intro j hj
    rw [getSide_setSide, if_neg (fun hcond => hne j (by omega) hcond.1)]
    exact hsp j hj
  have hfollow := findGo_false_follow (setSide p1 x (networkBit bytes d0 (d0 - S)) r)
    bytes d0 S xs 0 d0 S hsp' (by omega) hx0 (le_refl S)
  rw [hxn] at hfollow
  rw [haltSel_congr _ _ _ hfollow, Nat.sub_self, haltSel_zero]
  rw [getSide_setSide, if_pos ⟨rfl, rfl, hx1⟩]

theorem insertRecord_empty_unfold (p : Pool) (nw : MNetwork) (fuel : Nat)
    (p1 : Pool) (x cb : Nat) (hfr : findNodeForNetwork true p nw = (p1, x, cb)) :
    insertRecordForNetwork p nw .empty (fuel + 1) =
      some (setSide p1 x (networkBit nw.bytes nw.maxDepth0 cb) .empty) := by
  rw [insertRecord_succ_rfl, hfr]
  cases hrec : getSide (getNode p1 x) (!networkBit nw.bytes nw.maxDepth0 cb) <;>
    simp [hrec]

/-- C5 (amended): for a network with `mask_length ≥ 1`, after a
successful `insert_network` the tree contains the network and
`lookup_ip_address` returns the inserted value for every host address
inside the prefix, with no intervening operation.  The rank function
witnesses that the starting pool's NODE graph is acyclic and bounded,
as every pool built by the exported operations is. -/
theorem c5_insert_contains_lookup
    (t : MTree) (nw : MNetwork) (k : MKey) (v : Nat) (fuel : Nat) (t' : MTree)
    (rk : Nat → Nat)
    (hb : Bounded t.pool) (hrk : Ranked t.pool rk) (h0 : 0 < t.pool.length)
    (hver : (t.ipVersion = 4 ∧ nw.maxDepth0 = 31) ∨ (t.ipVersion = 6 ∧ nw.maxDepth0 = 127))
    (hm1 : 1 ≤ nw.maskLength) (hm2 : nw.maskLength ≤ nw.maxDepth0 + 1)
    (hins : insertNetwork fuel t nw k v = some (some t')) :
    treeHasNetwork t' nw = true ∧
    ∀ addr : List Nat, agreesOn nw.bytes addr nw.maxDepth0 nw.maskLength →
      lookupIpAddress t' addr = some (some v) := by
  obtain ⟨p, hrec, rfl⟩ := insertNetwork_some fuel t nw k v t' hins
  have hd : nw.maxDepth0 ≤ 254 := by rcases hver with ⟨_, h⟩ | ⟨_, h⟩ <;> omega
  obtain ⟨hb', hrk', hlen', hdh⟩ :=
    insertRecord_dataHalt fuel t.pool nw k p hb ⟨rk, hrk⟩ h0 hd hrec
  have hc : needAgree nw.maxDepth0 nw.maskLength ≤ nw.maskLength := needAgree_le_self _ _ hm1
  constructor
  · have hh := hdh nw.bytes nw.maskLength (fun t2 ht2 => rfl) hc hm2
    simp only [treeHasNetwork_eq]
    rw [hh]
  · intro addr hag
    have hh := hdh addr (nw.maxDepth0 + 1)
      (fun t2 ht2 => hag t2 (by omega)) (by omega) (le_refl _)
    simp only [lookupIpAddress_eq]
    rcases hver with ⟨h4, hd0⟩ | ⟨h6, hd0⟩
    · rw [h4]
      have h46 : ((4 : Nat) = 6) = False := by simp
      simp only [h46, if_false, ← hd0]
      rw [hh]
      simp [dataForKey_hvStore]
    · rw [h6]
      have h66 : ((6 : Nat) = 6) = True := by simp
      simp only [h66, if_true, ← hd0]
      rw [hh]
      simp [dataForKey_hvStore]

/-- C7: `delete_network` checks the exact prefix with the halt policy
and returns the tree unchanged when no record is there; otherwise the
EMPTY insertion is exactly one materializing descent plus one record
write — no sibling merge can fire for EMPTY (tree.c line 390 requires
the new record to be DATA) — and afterwards `tree_has_network` is
false. -/
theorem c7_delete_exact_prefix
    (t : MTree) (nw : MNetwork) (fuel : Nat) (rk : Nat → Nat)
    (hb : Bounded t.pool) (hrk : Ranked t.pool rk) (h0 : 0 < t.pool.length)
    (hfam : ¬(t.ipVersion = 4 ∧ nw.family = 6)) :
    (treeHasNetwork t nw = false → deleteNetwork (fuel + 1) t nw = some t) ∧
    (treeHasNetwork t nw = true →
      ∃ t', deleteNetwork (fuel + 1) t nw = some t' ∧
        t'.pool = setSide (findNodeForNetwork true t.pool nw).1
          (findNodeForNetwork true t.pool nw).2.1
          (networkBit nw.bytes nw.maxDepth0 (findNodeForNetwork true t.pool nw).2.2) .empty ∧
        treeHasNetwork t' nw = false) := by
  constructor
  · intro hhas
    rw [deleteNetwork, if_neg hfam, if_neg (by simp [hhas])]
  · intro hhas
    obtain ⟨p1, x, cb', xs, heq, hcb, hlen1, hb1, hx1, hpers, hrank1, hxs, hx0, hxn, hsp, hbnd⟩ :=
      findGo_mat nw.bytes nw.maxDepth0 (findSteps nw.maxDepth0 nw.maskLength) t.pool 0
        nw.maxDepth0 hb h0
    have hfr : findNodeForNetwork true t.pool nw = (p1, x, cb') := heq
    obtain ⟨rk1, hrk1⟩ := hrank1 rk hrk
    refine ⟨{ t with pool := setSide p1 x (networkBit nw.bytes nw.maxDepth0 cb') .empty },
      ?_, ?_, ?_⟩
    · rw [deleteNetwork, if_neg hfam, if_pos (by simp [hhas]),
        insertRecord_empty_unfold t.pool nw fuel p1 x cb' hfr]
      rfl
    · rw [hfr]
    · rw [treeHasNetwork_eq]
      have hsel : haltSel (setSide p1 x (networkBit nw.bytes nw.maxDepth0 cb') .empty)
          nw.bytes nw.maxDepth0 0 nw.maxDepth0 (findSteps nw.maxDepth0 nw.maskLength) =
          .empty := by
        have := haltSel_setSide_spine p1 nw.bytes nw.maxDepth0
          (findSteps nw.maxDepth0 nw.maskLength) .empty xs x rk1 hrk1 hxs hx0 hxn hsp hx1
        rw [← hcb] at this
        exact this
      simp only []
      rw [hsel]

theorem edge_ok_of_checkEdges {p : Pool} {f : Nat → Nat → Bool}
    (h : checkEdges p f = true) :
    ∀ i j b, getSide (getNode p i) b = .node j → f i j = true := by
  intro i j b hb
  have hi : i < p.length := by
    by_contra hge
    exact no_child_of_length_le p (Nat.le_of_not_lt hge) b j hb
  rw [checkEdges, List.all_eq_true] at h
  have := h i (List.mem_range.mpr hi)
  rw [Bool.and_eq_true] at this
  cases b
  · have hl := this.1
    rw [hb] at hl
    exact hl
  · have hr := this.2
    rw [hb] at hr
    exact hr

theorem bounded_of_checkEdges {p : Pool}
    (h : checkEdges p (fun _ j => decide (j < p.length)) = true) : Bounded p := by
  intro i j hij
  obtain ⟨b, hb⟩ := hij
  exact of_decide_eq_true (edge_ok_of_checkEdges h i j b hb)

theorem ranked_of_checkEdges {p : Pool} {rk : Nat → Nat}
    (h : checkEdges p (fun i j => decide (rk j < rk i)) = true) : Ranked p rk := by
  intro i j hij
  obtain ⟨b, hb⟩ := hij
  exact of_decide_eq_true (edge_ok_of_checkEdges h i j b hb)

theorem bounded_newTree_pool : Bounded [emptyMNode] :=
  bounded_of_checkEdges (by decide)

theorem ranked_newTree_pool : Ranked [emptyMNode] (fun _ => 0) :=
  ranked_of_checkEdges (by decide)

/-! ## Nibble packing arithmetic for the 28-bit record format -/

theorem and_fifteen (x : Nat) : x &&& 15 = x % 16 := by
  have h := Nat.and_pow_two_sub_one_eq_mod x 4
  norm_num at h
  exact h

theorem or_low_nibble (x y : Nat) (hy : y < 16) : (16 * x) ||| y = 16 * x + y := by
  have h := Nat.mul_add_lt_is_or (b := y) (i := 4) (lt_of_lt_of_le hy (by norm_num)) x
  norm_num at h
  exact h.symm

theorem nibble_pack (a b : Nat) :
    ((a <<< 4) ||| (b &&& 15)) % 256 = ((a &&& 15) <<< 4) ||| (b &&& 15) := by
  rw [Nat.shiftLeft_eq, Nat.shiftLeft_eq, and_fifteen, and_fifteen,
    show (2 : Nat) ^ 4 = 16 from rfl, mul_comm a 16, mul_comm (a % 16) 16,
    or_low_nibble a (b % 16) (Nat.mod_lt _ (by norm_num)),
    or_low_nibble (a % 16) (b % 16) (Nat.mod_lt _ (by norm_num))]
  omega

/-- C1: `write_search_tree` writes nothing at all: `start_iteration`
(tree.c line 648) dispatches `assign_node_number` instead of the
`encode_node` callback it was handed, so no bytes reach the sink even
though the finalized tree has `node_count = 1` and the claim requires
`1 × 6` bytes for `record_size` 24.  (The renumbering also runs again
from the stale counter, leaving `node_count` doubled.) -/
theorem c1_write_search_tree_emits_nothing :
    (writeSearchTree (newTree 4 24 1) (fun _ => 0)).2 = [] ∧
    (finalizeTree (newTree 4 24 1)).nodeCount = 1 ∧
    (newTree 4 24 1).recordSize = 24 ∧
    (writeSearchTree (newTree 4 24 1) (fun _ => 0)).2.length ≠
      (finalizeTree (newTree 4 24 1)).nodeCount * 6 := by
  decide

/-- C2: the record values the encoder derives (EMPTY → 0, NODE → child
number, DATA → collaborator position + node_count + 16 at `uint32_t`
width) are as claimed, and on a big-endian host the packing is the
claimed big-endian blob, including the 28-bit middle byte
`((L[0] & 0x0F) << 4) | (R[0] & 0x0F)`.  But `encode_node` reads the
`uint32_t` object representation through `(uint8_t *)&left` with no
`htonl` (tree.c lines 583-584), so on a little-endian host — where this
Perl XS module is built in practice — byte 0 is the least significant
byte and the emitted blob is not the claimed big-endian packing: for
`record_size` 24 the low byte of each record value is dropped entirely,
as the concrete node with left value 1 shows (all-zero bytes emitted
instead of `[0, 0, 1, 0, 0, 0]`). -/
theorem c2_encoder_values_and_endianness :
    (∀ (ctx : EncCtx) (p : Pool), recordValueAsNumber ctx p .empty = 0) ∧
    (∀ (ctx : EncCtx) (p : Pool) (j : Nat),
      recordValueAsNumber ctx p (.node j) = (getNode p j).number) ∧
    (∀ (ctx : EncCtx) (p : Pool) (k : MKey),
      recordValueAsNumber ctx p (.data k) = (ctx.posOf k + ctx.nodeCount + 16) % 2 ^ 32) ∧
    (∀ (nc : Nat) (pos : MKey → Nat) (p : Pool) (nd : MNode),
      encodeNodeBytes true ⟨24, nc, pos⟩ p nd =
        [recordValueAsNumber ⟨24, nc, pos⟩ p nd.left / 2 ^ 16 % 256,
         recordValueAsNumber ⟨24, nc, pos⟩ p nd.left / 2 ^ 8 % 256,
         recordValueAsNumber ⟨24, nc, pos⟩ p nd.left % 256,
         recordValueAsNumber ⟨24, nc, pos⟩ p nd.right / 2 ^ 16 % 256,
         recordValueAsNumber ⟨24, nc, pos⟩ p nd.right / 2 ^ 8 % 256,
         recordValueAsNumber ⟨24, nc, pos⟩ p nd.right % 256]) ∧
    (∀ (nc : Nat) (pos : MKey → Nat) (p : Pool) (nd : MNode),
      encodeNodeBytes true ⟨32, nc, pos⟩ p nd =
        [recordValueAsNumber ⟨32, nc, pos⟩ p nd.left / 2 ^ 24 % 256,
         recordValueAsNumber ⟨32, nc, pos⟩ p nd.left / 2 ^ 16 % 256,
         recordValueAsNumber ⟨32, nc, pos⟩ p nd.left / 2 ^ 8 % 256,
         recordValueAsNumber ⟨32, nc, pos⟩ p nd.left % 256,
         recordValueAsNumber ⟨32, nc, pos⟩ p nd.right / 2 ^ 24 % 256,
         recordValueAsNumber ⟨32, nc, pos⟩ p nd.right / 2 ^ 16 % 256,
         recordValueAsNumber ⟨32, nc, pos⟩ p nd.right / 2 ^ 8 % 256,
         recordValueAsNumber ⟨32, nc, pos⟩ p nd.right % 256]) ∧
    (∀ (nc : Nat) (pos : MKey → Nat) (p : Pool) (nd : MNode),
      encodeNodeBytes true ⟨28, nc, pos⟩ p nd =
        [recordValueAsNumber ⟨28, nc, pos⟩ p nd.left / 2 ^ 16 % 256,
         recordValueAsNumber ⟨28, nc, pos⟩ p nd.left / 2 ^ 8 % 256,
         recordValueAsNumber ⟨28, nc, pos⟩ p nd.left % 256,
         ((recordValueAsNumber ⟨28, nc, pos⟩ p nd.left / 2 ^ 24 % 256 &&& 15) <<< 4) |||
           (recordValueAsNumber ⟨28, nc, pos⟩ p nd.right / 2 ^ 24 % 256 &&& 15),
         recordValueAsNumber ⟨28, nc, pos⟩ p nd.right / 2 ^ 16 % 256,
         recordValueAsNumber ⟨28, nc, pos⟩ p nd.right / 2 ^ 8 % 256,
         recordValueAsNumber ⟨28, nc, pos⟩ p nd.right % 256]) ∧
    encodeNodeBytes false ⟨24, 0, fun _ => 0⟩ [⟨.empty, .empty, 1⟩]
      ⟨.node 0, .empty, 0⟩ = [0, 0, 0, 0, 0, 0] ∧
    encodeNodeBytes true ⟨24, 0, fun _ => 0⟩ [⟨.empty, .empty, 1⟩]
      ⟨.node 0, .empty, 0⟩ = [0, 0, 1, 0, 0, 0] ∧
    encodeNodeBytes false ⟨24, 0, fun _ => 0⟩ [⟨.empty, .empty, 1⟩]
      ⟨.node 0, .empty, 0⟩ ≠
      encodeNodeBytes true ⟨24, 0, fun _ => 0⟩ [⟨.empty, .empty, 1⟩]
        ⟨.node 0, .empty, 0⟩ := by
  refine ⟨fun _ _ => rfl, fun _ _ _ => rfl, fun _ _ _ => rfl, fun nc pos p nd => ?_,
    fun nc pos p nd => ?_, fun nc pos p nd => ?_, by decide, by decide, by decide⟩
  · simp [encodeNodeBytes, byteAt]
  · simp [encodeNodeBytes, byteAt]
  · show [byteAt true _ 1, byteAt true _ 2, byteAt true _ 3,
      ((byteAt true _ 0 <<< 4) ||| (byteAt true _ 0 &&& 15)) % 256,
      byteAt true _ 1, byteAt true _ 2, byteAt true _ 3] = _
    rw [nibble_pack]
    simp [byteAt]

/-- C3 counterexample: `delete_network` mutates a finalized tree (the
contained network disappears) but does not clear `is_finalized`
(tree.c lines 289-305 never touch the flag), refuting "any mutation
clears the flag". -/
theorem c3_counterexample_delete_keeps_flag :
    c3bTree.isFinalized = true ∧
    treeHasNetwork c3bTree ⟨[1, 0, 0, 0], 8, 31, 4⟩ = true ∧
    treeHasNetwork c3cTree ⟨[1, 0, 0, 0], 8, 31, 4⟩ = false ∧
    c3cTree.isFinalized = true := by
  decide

/-- C5 counterexample: the claim fails for mask_length 0.  Inserting
0.0.0.0/0 writes only the root record selected by the top address bit
(bit 31 of 0.0.0.0, the left side), so the host 128.0.0.0 — inside the
/0 prefix, with no later insertion — looks up as not-found instead of
the inserted value. -/
theorem c5_counterexample_mask_zero :
    insertNetwork 600 (newTree 4 24 1) ⟨[0, 0, 0, 0], 0, 31, 4⟩ [3] 4 =
      some (some c5cTree) ∧
    agreesOn [0, 0, 0, 0] [128, 0, 0, 0] 31 0 ∧
    lookupIpAddress c5cTree [128, 0, 0, 0] ≠ some (some 4) := by
  refine ⟨by decide, fun t ht => absurd ht (by omega), by decide⟩

/-- C8: `free_tree` decrements no key references at all:
`start_iteration` (tree.c line 648) dispatches `assign_node_number`
instead of `key_refcnt_dec`, so the traversal renumbers nodes instead
of releasing keys; the intended composition of `iterate_tree` with
`key_refcnt_dec` would release the single reachable DATA key exactly
once. -/
theorem c8_free_tree_decrements_nothing :
    freeTree c8Tree = [] ∧ freeTreeDecsIntended c8Tree = [[2]] := by
  decide

/-- C9: `new_tree` performs no validation (the `XXX` comments at tree.c
lines 78 and 80 note the missing checks): ip_version 5 and record_size
99 are both invalid, yet a fully formed tree with an allocated root
comes back instead of an InvalidArgument failure. -/
theorem c9_new_tree_accepts_invalid_args :
    (newTree 5 99 7).ipVersion = 5 ∧
    (newTree 5 99 7).recordSize = 99 ∧
    (newTree 5 99 7).pool = [emptyMNode] ∧
    (newTree 5 99 7).isFinalized = false := by
  decide

/-- C10: the second `new_node` call already hands out a slot outside
the pool: the realloc at tree.c line 522 always obtains
`nodes_per_alloc * node_size` bytes (it never grows with
`allocated_nodes`), and line 531 scales `next_node * node_size` by
`MMDBW_node_s` pointer arithmetic a second time, so with
`nodes_per_alloc = 1` the second slot starts at byte `node_size²` in a
`node_size`-byte buffer, for any node size. -/
theorem c10_alloc_out_of_bounds (ns : Nat) (h : 1 ≤ ns) :
    (newNodeAlloc ns 1 (newNodeAlloc ns 1 allocInit).1).1.capacityBytes <
      (newNodeAlloc ns 1 (newNodeAlloc ns 1 allocInit).1).2 + ns := by
  have h1 : (newNodeAlloc ns 1 allocInit).1 = ⟨1, 1, ns⟩ := by
    rw [newNodeAlloc]
    simp [allocInit]
  rw [h1]
  have h2 : ns ≤ ns * ns := Nat.le_mul_of_pos_left ns h
  rw [newNodeAlloc]
  simp only [le_refl, if_pos, one_mul]
  omega

theorem c10_alloc_out_of_bounds_witness :
    1 ≤ 48 ∧
    (newNodeAlloc 48 1 (newNodeAlloc 48 1 allocInit).1).1.capacityBytes <
      (newNodeAlloc 48 1 (newNodeAlloc 48 1 allocInit).1).2 + 48 :=
  ⟨by decide, c10_alloc_out_of_bounds 48 (by decide)⟩

set_option maxRecDepth 100000 in
/-- C6: with the v4 subtree present (an insert under `::/100`
materializes the all-zero path past depth 95, so the alias install
runs, placing NODE(95) at the selected side of the `::ffff:0:0/95`
descent target, node 113), the three lookups do NOT agree: the v4
literal 0.0.0.0 resolves (AI_V4MAPPED) to the same bytes as
`::ffff:0.0.0.0`, and both return not-found, while the corresponding
6to4 address `2002::` returns the stored value.  The alias wiring is
off by one bit: via `::ffff:...` bit 32 of the address is 1, but the
v4 data sits on the bit-32 = 0 side of the shared node. -/
theorem c6_alias_lookups_disagree :
    insertNetwork 600 (newTree 6 24 1) ⟨List.replicate 16 0, 100, 127, 6⟩ [65] 7 =
      some (some c6Base) ∧
    (findNodeForNetwork false c6Base.pool ⟨ipv4RootBytes, 96, 127, 6⟩).2.2 = 32 ∧
    getSide (getNode c6Tree.pool 113) true = .node 95 ∧
    lookupIpAddress c6Tree ffffBytes = some none ∧
    lookupIpAddress c6Tree b2002 = some (some 7) ∧
    lookupIpAddress c6Tree ffffBytes ≠ lookupIpAddress c6Tree b2002 := by
  decide

theorem c5_insert_contains_lookup_witness :
    1 ≤ (⟨[10, 0, 0, 0], 8, 31, 4⟩ : MNetwork).maskLength ∧
    treeHasNetwork c5wTree ⟨[10, 0, 0, 0], 8, 31, 4⟩ = true ∧
    lookupIpAddress c5wTree [10, 1, 2, 3] = some (some 9) := by
  have h := c5_insert_contains_lookup (newTree 4 24 1) ⟨[10, 0, 0, 0], 8, 31, 4⟩ [7] 9 600
    c5wTree (fun _ => 0) bounded_newTree_pool ranked_newTree_pool (by decide)
    (Or.inl ⟨rfl, rfl⟩) (by decide) (by decide) (by decide)
  refine ⟨by decide, h.1, h.2 [10, 1, 2, 3] ?_⟩
  intro t ht
  interval_cases t <;> decide

theorem c7_delete_exact_prefix_witness :
    ¬(c7wTree.ipVersion = 4 ∧ (⟨[5, 0, 0, 0], 8, 31, 4⟩ : MNetwork).family = 6) ∧
    ((treeHasNetwork c7wTree ⟨[5, 0, 0, 0], 8, 31, 4⟩ = false →
        deleteNetwork 601 c7wTree ⟨[5, 0, 0, 0], 8, 31, 4⟩ = some c7wTree) ∧
     (treeHasNetwork c7wTree ⟨[5, 0, 0, 0], 8, 31, 4⟩ = true →
        ∃ t', deleteNetwork 601 c7wTree ⟨[5, 0, 0, 0], 8, 31, 4⟩ = some t' ∧
          t'.pool = setSide
            (findNodeForNetwork true c7wTree.pool ⟨[5, 0, 0, 0], 8, 31, 4⟩).1
            (findNodeForNetwork true c7wTree.pool ⟨[5, 0, 0, 0], 8, 31, 4⟩).2.1
            (networkBit (⟨[5, 0, 0, 0], 8, 31, 4⟩ : MNetwork).bytes
              (⟨[5, 0, 0, 0], 8, 31, 4⟩ : MNetwork).maxDepth0
              (findNodeForNetwork true c7wTree.pool ⟨[5, 0, 0, 0], 8, 31, 4⟩).2.2) .empty ∧
          treeHasNetwork t' ⟨[5, 0, 0, 0], 8, 31, 4⟩ = false)) := by
  exact ⟨by decide, c7_delete_exact_prefix c7wTree ⟨[5, 0, 0, 0], 8, 31, 4⟩ 600
    (fun i => 20 - i) (bounded_of_checkEdges (by decide)) (ranked_of_checkEdges (by decide))
    (by decide) (by decide)⟩

theorem length_setNumber (p : Pool) (i n : Nat) : (setNumber p i n).length = p.length := by
  simp [setNumber]

theorem getNode_setNumber (p : Pool) (i n i' : Nat) :
    getNode (setNumber p i n) i' =
      if i' = i ∧ i < p.length then { getNode p i with number := n } else getNode p i' := by
  by_cases hi : i' = i
  · subst hi
    by_cases hl : i' < p.length
    · simp [setNumber, getNode_eq_getElem, List.getElem?_set_self, hl]
    · simp [setNumber, getNode_eq_getElem, hl, List.set_eq_of_length_le (Nat.le_of_not_lt hl)]
  · simp [setNumber, getNode_eq_getElem, hi, List.getElem?_set_ne (fun h => hi h.symm)]

theorem recordsEq_setNumber (p : Pool) (i n : Nat) : RecordsEq (setNumber p i n) p := by
  intro i'
  rw [getNode_setNumber]
  split
  · rename_i h
    rw [h.1]
    exact ⟨rfl, rfl⟩
  · exact ⟨rfl, rfl⟩

theorem recordsEq_refl (p : Pool) : RecordsEq p p := fun _ => ⟨rfl, rfl⟩

theorem recordsEq_trans {p q r : Pool} (h1 : RecordsEq p q) (h2 : RecordsEq q r) :
    RecordsEq p r := fun i =>
  ⟨(h1 i).1.trans (h2 i).1, (h1 i).2.trans (h2 i).2⟩

theorem getSide_recordsEq {p q : Pool} (h : RecordsEq p q) (i : Nat) (b : Bool) :
    getSide (getNode p i) b = getSide (getNode q i) b := by
  cases b
  · exact (h i).1
  · exact (h i).2

theorem childOf_recordsEq {p q : Pool} (h : RecordsEq p q) (i j : Nat) :
    childOf p i j ↔ childOf q i j := by
  constructor
  · rintro ⟨b, hb⟩
    exact ⟨b, (getSide_recordsEq h i b).symm.trans hb⟩
  · rintro ⟨b, hb⟩
    exact ⟨b, (getSide_recordsEq h i b).trans hb⟩

theorem reaches_recordsEq {p q : Pool} (h : RecordsEq p q) {i j : Nat}
    (hr : Reaches p i j) : Reaches q i j := by
  induction hr with
  | refl => exact .refl _
  | step hr hc ih => exact .step ih ((childOf_recordsEq h _ _).mp hc)

theorem reaches_head {p : Pool} {i j l : Nat} (hc : childOf p i j) (hr : Reaches p j l) :
    Reaches p i l := by
  induction hr with
  | refl => exact .step (.refl _) hc
  | step hr hc' ih => exact .step ih hc'

theorem mem_poolTargets (p : Pool) (j : Nat) :
    j ∈ poolTargets p ↔ ∃ i, i < p.length ∧
      ((getNode p i).left = .node j ∨ (getNode p i).right = .node j) := by
  induction p with
  | nil => simp [poolTargets]
  | cons nd rest ih =>
    rw [poolTargets, List.foldr_cons]
    constructor
    · intro h
      rw [Finset.mem_union, Finset.mem_union] at h
      rcases h with (h | h) | h
      · refine ⟨0, by simp, Or.inl ?_⟩
        cases hl : nd.left <;> simp [recTargets, hl] at h <;> simp [getNode, h, hl]
      · refine ⟨0, by simp, Or.inr ?_⟩
        cases hr : nd.right <;> simp [recTargets, hr] at h <;> simp [getNode, h, hr]
      · obtain ⟨i, hi, hrec⟩ := (ih).mp h
        refine ⟨i + 1, by simpa using Nat.succ_lt_succ hi, ?_⟩
        simpa [getNode] using hrec
    · rintro ⟨i, hi, hrec⟩
      rw [Finset.mem_union, Finset.mem_union]
      cases i with
      | zero =>
        simp only [getNode, List.getD_cons_zero] at hrec
        rcases hrec with h | h
        · exact Or.inl (Or.inl (by simp [recTargets, h]))
        · exact Or.inl (Or.inr (by simp [recTargets, h]))
      | succ i =>
        refine Or.inr (ih.mpr ⟨i, by simpa using Nat.lt_of_succ_lt_succ hi, ?_⟩)
        simpa [getNode] using hrec

theorem poolTargets_recordsEq {p q : Pool} (h : RecordsEq p q) (hlen : p.length = q.length) :
    poolTargets p = poolTargets q := by
  ext j
  rw [mem_poolTargets, mem_poolTargets]
  constructor
  · rintro ⟨i, hi, hrec⟩
    exact ⟨i, hlen ▸ hi, by rw [← (h i).1, ← (h i).2]; exact hrec⟩
  · rintro ⟨i, hi, hrec⟩
    exact ⟨i, hlen ▸ hi, by rw [(h i).1, (h i).2]; exact hrec⟩

theorem childOf_mem_poolTargets {p : Pool} {i j : Nat} (h : childOf p i j) :
    j ∈ poolTargets p := by
  obtain ⟨b, hb⟩ := h
  have hi : i < p.length := by
    by_contra hge
    exact no_child_of_length_le p (Nat.le_of_not_lt hge) b j hb
  rw [mem_poolTargets]
  refine ⟨i, hi, ?_⟩
  cases b
  · exact Or.inl hb
  · exact Or.inr hb

theorem card_poolTargets_le (p : Pool) : (poolTargets p).card ≤ 2 * p.length := by
  induction p with
  | nil => simp [poolTargets]
  | cons nd rest ih =>
    rw [poolTargets, List.foldr_cons]
    have h1 : (recTargets nd.left).card ≤ 1 := by
      cases nd.left <;> simp [recTargets]
    have h2 : (recTargets nd.right).card ≤ 1 := by
      cases nd.right <;> simp [recTargets]
    calc (recTargets nd.left ∪ recTargets nd.right ∪ poolTargets rest).card
        ≤ (recTargets nd.left ∪ recTargets nd.right).card + (poolTargets rest).card :=
          Finset.card_union_le _ _
      _ ≤ ((recTargets nd.left).card + (recTargets nd.right).card) + (poolTargets rest).card :=
          Nat.add_le_add_right (Finset.card_union_le _ _) _
      _ ≤ 2 * (nd :: rest).length := by
          simp only [List.length_cons]
          omega

theorem bounded_recordsEq {p q : Pool} (h : RecordsEq p q) (hlen : p.length = q.length)
    (hb : Bounded q) : Bounded p := by
  intro i j hc
  rw [hlen]
  exact hb i j ((childOf_recordsEq h i j).mp hc)

theorem stepSpec_same (apool : Pool) (idx : Nat) (b : IterAcc) (h2 : b.seen.Nodup) :
    StepSpec apool idx b b [] := by
  refine ⟨(List.append_nil _).symm, h2, by simp, rfl, rfl, rfl, recordsEq_refl _,
    fun i _ => rfl, by simp, by simp, by simp⟩

theorem iterOn_match_eq (cb : CB) (ctx : EncCtx) (fuel : Nat) (b : IterAcc) (r : MRecord) :
    (match r with
      | MRecord.node j => iterateTree cb ctx fuel b j
      | _ => b) = iterOn cb ctx fuel b r := by
  cases r <;> rfl

theorem iterateTree_succ_eq (cb : CB) (ctx : EncCtx) (fuel : Nat) (a : IterAcc) (idx : Nat) :
    iterateTree cb ctx (fuel + 1) a idx =
      if idx ∈ a.seen then a
      else
        iterOn cb ctx fuel
          (iterOn cb ctx fuel (iterEnter cb ctx a idx)
            (getNode (iterEnter cb ctx a idx).pool idx).left)
          (getNode (iterOn cb ctx fuel (iterEnter cb ctx a idx)
            (getNode (iterEnter cb ctx a idx).pool idx).left).pool idx).right := by
  rfl

theorem iter_assign_step (fuel : Nat) (ctx : EncCtx) (ih : AssignSpecAt fuel)
    (apool : Pool) (aseen : List Nat) (idx : Nat)
    (hb : Bounded apool) (hidxseen : idx ∉ aseen)
    (hfuel : (insert idx (poolTargets apool) \ aseen.toFinset).card ≤ fuel)
    (b : IterAcc) (r : MRecord) (dprev : List Nat)
    (h1 : b.seen = (aseen ++ [idx]) ++ dprev)
    (h2 : b.seen.Nodup)
    (h3 : b.pool.length = apool.length)
    (h4 : RecordsEq b.pool apool)
    (h6 : ∀ j, r = .node j → childOf apool idx j) :
    ∃ d2 : List Nat,
      StepSpec apool idx b (iterOn .assign ctx fuel b r) d2 ∧
      (∀ j, r = .node j → j ∈ (iterOn .assign ctx fuel b r).seen) := by
  cases r with
  | empty =>
    exact ⟨[], stepSpec_same apool idx b h2, fun j hj => by cases hj⟩
  | data k =>
    exact ⟨[], stepSpec_same apool idx b h2, fun j hj => by cases hj⟩
  | node j =>
    have hchild : childOf apool idx j := h6 j rfl
    have hbb : Bounded b.pool := bounded_recordsEq h4 h3 hb
    have hjlt : j < b.pool.length := hbb idx j ((childOf_recordsEq h4 idx j).mpr hchild)
    have hPT : poolTargets b.pool = poolTargets apool := poolTargets_recordsEq h4 h3
    have hjPT : j ∈ poolTargets apool := childOf_mem_poolTargets hchild
    have hidxmem : idx ∈ insert idx (poolTargets apool) \ aseen.toFinset := by
      rw [Finset.mem_sdiff]
      exact ⟨Finset.mem_insert_self _ _, by simpa using hidxseen⟩
    have hsub : insert j (poolTargets b.pool) \ b.seen.toFinset ⊆
        (insert idx (poolTargets apool) \ aseen.toFinset).erase idx := by
      intro s hs
      rw [Finset.mem_sdiff, Finset.mem_insert] at hs
      have hsPT : s ∈ poolTargets apool := by
        rcases hs.1 with h | h
        · exact h ▸ hjPT
        · exact hPT ▸ h
      have hsb : s ∉ b.seen := by simpa using hs.2
      rw [h1] at hsb
      simp only [List.mem_append, List.mem_singleton, not_or] at hsb
      rw [Finset.mem_erase, Finset.mem_sdiff, Finset.mem_insert]
      exact ⟨hsb.1.2, Or.inr hsPT, by simpa using hsb.1.1⟩
    have hcard : (insert j (poolTargets b.pool) \ b.seen.toFinset).card + 1 ≤ fuel := by
      have h1c := Finset.card_le_card hsub
      have h3c := Finset.card_erase_of_mem hidxmem
      have h4c : 0 < (insert idx (poolTargets apool) \ aseen.toFinset).card :=
        Finset.card_pos.mpr ⟨idx, hidxmem⟩
      omega
    obtain ⟨d2, hS, hmem, _⟩ := ih ctx b j hbb hjlt h2 hcard
    obtain ⟨s1, s2, s3, s4, s5, s6, s7, s8, s9, s10, s11⟩ := hS
    refine ⟨d2, ⟨s1, s2, s3, s4, s5, s6, s7, s8, s9,
      fun s hs => reaches_head hchild (reaches_recordsEq h4 (s10 s hs)),
      fun s hs j' hc => s11 s hs j' ((childOf_recordsEq h4 s j').mpr hc)⟩, ?_⟩
    intro j' hj'
    injection hj' with hj'
    subst hj'
    exact hmem

theorem iter_assign_spec : ∀ fuel : Nat, AssignSpecAt fuel := by
  intro fuel
  induction fuel with
  | zero =>
    intro ctx a idx _ _ _ hfuel
    exact absurd hfuel (by omega)
  | succ fuel ih =>
    intro ctx a idx hb hlt hnd hfuel
    rw [iterateTree_succ_eq]
    by_cases hseen : idx ∈ a.seen
    · rw [if_pos hseen]
      exact ⟨[], stepSpec_same a.pool idx a hnd, hseen, fun h => absurd hseen h⟩
    · rw [if_neg hseen]
      set E := iterEnter CB.assign ctx a idx with hEdef
      have hEpool : E.pool = setNumber a.pool idx a.counter := rfl
      have hEseen : E.seen = a.seen ++ [idx] := rfl
      have hEcnt : E.counter = a.counter + 1 := rfl
      have hElen : E.pool.length = a.pool.length := length_setNumber a.pool idx a.counter
      have hErec : RecordsEq E.pool a.pool := recordsEq_setNumber a.pool idx a.counter
      have hEnodup : E.seen.Nodup := by
        rw [hEseen, List.nodup_append]
        exact ⟨hnd, List.nodup_singleton idx,
          fun s hs hsx => hseen (by simp at hsx; exact hsx ▸ hs)⟩
      have hfuel' : (insert idx (poolTargets a.pool) \ a.seen.toFinset).card ≤ fuel := by
        omega
      obtain ⟨dL, hSL, hLmem⟩ :=
        iter_assign_step fuel ctx ih a.pool a.seen idx hb hseen hfuel'
          E ((getNode E.pool idx).left) []
          (by rw [hEseen, List.append_nil]) hEnodup hElen hErec
          (fun j hj => (childOf_recordsEq hErec idx j).mp ⟨false, hj⟩)
      obtain ⟨L1, L2, L3, L4, L5, L6, L7, L8, L9, L10, L11⟩ := hSL
      set CL := iterOn CB.assign ctx fuel E ((getNode E.pool idx).left) with hCLdef
      have hCLrec : RecordsEq CL.pool a.pool := recordsEq_trans L7 hErec
      obtain ⟨dR, hSR, hRmem⟩ :=
        iter_assign_step fuel ctx ih a.pool a.seen idx hb hseen hfuel'
          CL ((getNode CL.pool idx).right) dL
          (by rw [L1, hEseen]) L2 (L6.trans hElen) hCLrec
          (fun j hj => (childOf_recordsEq hCLrec idx j).mp ⟨true, hj⟩)
      obtain ⟨R1, R2, R3, R4, R5, R6, R7, R8, R9, R10, R11⟩ := hSR
      set CR := iterOn CB.assign ctx fuel CL ((getNode CL.pool idx).right) with hCRdef
      have hidxE : idx ∈ E.seen := by rw [hEseen]; simp
      have hidxCL : idx ∈ CL.seen := by rw [L1]; exact List.mem_append_left _ hidxE
      have hidxCR : idx ∈ CR.seen := by rw [R1]; exact List.mem_append_left _ hidxCL
      have hdisjL : ∀ s ∈ E.seen, s ∉ dL := by
        have h := L2
        rw [L1, List.nodup_append] at h
        exact fun s hs hmem => h.2.2 hs hmem
      have hdisjR : ∀ s ∈ CL.seen, s ∉ dR := by
        have h := R2
        rw [R1, List.nodup_append] at h
        exact fun s hs hmem => h.2.2 hs hmem
      have hidxdL : idx ∉ dL := hdisjL idx hidxE
      have hidxdR : idx ∉ dR := hdisjR idx hidxCL
      have hmemCLdL : ∀ s ∈ dL, s ∈ CL.seen := fun s hs => by
        rw [L1]; exact List.mem_append_right _ hs
      have hmemCRCL : ∀ s ∈ CL.seen, s ∈ CR.seen := fun s hs => by
        rw [R1]; exact List.mem_append_left _ hs
      refine ⟨idx :: (dL ++ dR), ⟨?_, R2, ?_, R4.trans L4, R5.trans L5,
        R6.trans (L6.trans hElen), recordsEq_trans R7 hCLrec, ?_, ?_, ?_, ?_⟩,
        hidxCR, fun _ => ⟨rfl, by simp⟩⟩
      · rw [R1, L1, hEseen]
        simp
      · rw [R3, L3, hEcnt]
        simp only [List.length_cons, List.length_append]
        omega
      · intro i hi
        simp only [List.mem_cons, List.mem_append, not_or] at hi
        rw [R8 i hi.2.2, L8 i hi.2.1, hEpool, getNode_setNumber,
          if_neg (fun h => hi.1 h.1)]
      · intro t ht
        cases t with
        | zero =>
          simp only [List.getD_cons_zero]
          rw [R8 idx hidxdR, L8 idx hidxdL, hEpool, getNode_setNumber,
            if_pos ⟨rfl, hlt⟩]
          rfl
        | succ u =>
          simp only [List.getD_cons_succ]
          have hu : u < dL.length + dR.length := by
            simp only [List.length_cons, List.length_append] at ht
            omega
          by_cases hcase : u < dL.length
          · rw [List.getD_append _ _ _ _ hcase]
            have hxdL : dL.getD u 0 ∈ dL := by
              rw [List.getD_eq_getElem _ _ hcase]
              exact List.getElem_mem hcase
            rw [R8 _ (hdisjR _ (hmemCLdL _ hxdL)), L9 u hcase, hEcnt]
            omega
          · have hw : u - dL.length < dR.length := by omega
            rw [List.getD_append_right _ _ _ _ (Nat.le_of_not_lt hcase),
              R9 _ hw, L3, hEcnt]
            omega
      · intro s hs
        rcases List.mem_cons.mp hs with h | h
        · rw [h]
          exact Reaches.refl idx
        · rcases List.mem_append.mp h with h | h
          · exact L10 s h
          · exact R10 s h
      · intro s hs j hc
        rcases List.mem_cons.mp hs with h | h
        · obtain ⟨bb, hbb⟩ := hc
          rw [h] at hbb
          cases bb
          · have hleft : (getNode E.pool idx).left = .node j := by
              rw [(hErec idx).1]
              exact hbb
            exact hmemCRCL _ (hLmem j hleft)
          · have hright : (getNode CL.pool idx).right = .node j := by
              rw [(hCLrec idx).2]
              exact hbb
            exact hRmem j hright
        · rcases List.mem_append.mp h with h | h
          · exact hmemCRCL _ (L11 s h j hc)
          · exact R11 s h j hc

theorem reaches_closed {p : Pool} {d : List Nat} {root : Nat}
    (hroot : root ∈ d) (hclosed : ∀ s ∈ d, ∀ j, childOf p s j → j ∈ d) :
    ∀ j, Reaches p root j → j ∈ d := by
  intro j hr
  induction hr with
  | refl => exact hroot
  | step hr hc ih => exact hclosed _ ih _ hc

theorem iter_root_spec (p : Pool) (ctx : EncCtx) (hb : Bounded p) (h0 : 0 < p.length) :
    ∃ vs : List Nat,
      (iterateTree .assign ctx (iterFuel p) ⟨p, 0, [], [], []⟩ 0).seen = vs ∧
      vs.Nodup ∧
      (∀ j, j ∈ vs ↔ Reaches p 0 j) ∧
      vs.getD 0 0 = 0 ∧ 0 < vs.length ∧
      (iterateTree .assign ctx (iterFuel p) ⟨p, 0, [], [], []⟩ 0).counter = vs.length ∧
      (iterateTree .assign ctx (iterFuel p) ⟨p, 0, [], [], []⟩ 0).pool.length = p.length ∧
      RecordsEq (iterateTree .assign ctx (iterFuel p) ⟨p, 0, [], [], []⟩ 0).pool p ∧
      (∀ u, u < vs.length →
        (getNode (iterateTree .assign ctx (iterFuel p) ⟨p, 0, [], [], []⟩ 0).pool
          (vs.getD u 0)).number = u) := by
  have hcard : (insert 0 (poolTargets p) \ (([] : List Nat)).toFinset).card + 1 ≤ iterFuel p := by
    have h1 : (insert 0 (poolTargets p) \ (([] : List Nat)).toFinset).card ≤
        (poolTargets p).card + 1 := by
      rw [List.toFinset_nil, Finset.sdiff_empty]
      exact Finset.card_insert_le _ _
    have h2 := card_poolTargets_le p
    rw [iterFuel]
    omega
  obtain ⟨d, hS, hmem0, hfresh⟩ :=
    iter_assign_spec (iterFuel p) ctx ⟨p, 0, [], [], []⟩ 0 hb h0 List.nodup_nil hcard
  obtain ⟨s1, s2, s3, _, _, s6, s7, s8, s9, s10, s11⟩ := hS
  obtain ⟨hd0, hdlen⟩ := hfresh (by simp)
  have hseen : (iterateTree .assign ctx (iterFuel p) ⟨p, 0, [], [], []⟩ 0).seen = d := by
    rw [s1]; rfl
  have hroot : 0 ∈ d := by
    have h := hmem0
    rw [hseen] at h
    exact h
  have hclosed : ∀ s ∈ d, ∀ j, childOf p s j → j ∈ d := by
    intro s hs j hc
    have h := s11 s hs j hc
    rw [hseen] at h
    exact h
  refine ⟨d, hseen, ?_, ?_, hd0, hdlen, by rw [s3]; simp,
    s6, s7, fun u hu => by simpa using s9 u hu⟩
  · have h := s2
    rw [hseen] at h
    exact h
  · intro j
    exact ⟨fun hj => s10 j hj, fun hr => reaches_closed hroot hclosed j hr⟩

theorem finalizeTree_idem (t : MTree) : finalizeTree (finalizeTree t) = finalizeTree t := by
  by_cases h : t.isFinalized <;> simp [finalizeTree, h]

theorem insertNetwork_clears_flag (fuel : Nat) (t1 : MTree) (nw : MNetwork) (k : MKey)
    (v : Nat) (t2 : MTree) (h : insertNetwork fuel t1 nw k v = some (some t2)) :
    t2.isFinalized = false := by
  rw [insertNetwork] at h
  split at h
  · simp at h
  · split at h
    · simp at h
    · simp only [Option.some.injEq] at h
      rw [← h]

/-- C3 (amended): for a tree whose pool has no dangling NODE handles and
whose finalized flag is clear, `finalize_tree` sets the flag, is
idempotent while the flag is set, and numbers the visited nodes — the
first-visit sequence `vs` of the depth-first traversal that runs the
callback on a node before descending its left then its right NODE child
and skips already-visited handles — uniquely in `[0, node_count)`:
`vs` enumerates exactly the handles reachable from the root, the root is
visited first and numbered 0, the `u`-th visited node gets number `u`,
and distinct reachable nodes get distinct numbers.  `insert_network`
clears the flag (the original claim's "any mutation clears the flag"
fails for `delete_network` and `alias_ipv4_networks`, see the
counterexample). -/
theorem c3_finalize_numbering (t : MTree)
    (hb : Bounded t.pool) (h0 : 0 < t.pool.length) (hflag : t.isFinalized = false) :
    (finalizeTree t).isFinalized = true ∧
    finalizeTree (finalizeTree t) = finalizeTree t ∧
    (∀ fuel t1 nw k v t2, insertNetwork fuel t1 nw k v = some (some t2) →
      t2.isFinalized = false) ∧
    ∃ vs : List Nat,
      (startIteration { t with nodeCount := 0 }
        ⟨t.recordSize, 0, fun _ => 0⟩ .assign).seen = vs ∧
      vs.Nodup ∧
      (∀ j, j ∈ vs ↔ Reaches t.pool 0 j) ∧
      vs.getD 0 0 = 0 ∧
      (finalizeTree t).nodeCount = vs.length ∧
      (∀ u, u < vs.length → (getNode (finalizeTree t).pool (vs.getD u 0)).number = u) ∧
      (getNode (finalizeTree t).pool 0).number = 0 ∧
      (∀ j, Reaches t.pool 0 j →
        (getNode (finalizeTree t).pool j).number < (finalizeTree t).nodeCount) ∧
      (∀ j j', Reaches t.pool 0 j → Reaches t.pool 0 j' →
        (getNode (finalizeTree t).pool j).number =
          (getNode (finalizeTree t).pool j').number →
        j = j') := by
  have hft : finalizeTree t = { assignNodeNumbers t with isFinalized := true } := by
    simp [finalizeTree, hflag]
  obtain ⟨vs, hvs, hnd, hmem, hgd0, hlen0, hcnt, _, _, hnum⟩ :=
    iter_root_spec t.pool ⟨t.recordSize, 0, fun _ => 0⟩ hb h0
  have hApool : (finalizeTree t).pool =
      (iterateTree .assign ⟨t.recordSize, 0, fun _ => 0⟩ (iterFuel t.pool)
        ⟨t.pool, 0, [], [], []⟩ 0).pool := by
    rw [hft]; rfl
  have hAcnt : (finalizeTree t).nodeCount =
      (iterateTree .assign ⟨t.recordSize, 0, fun _ => 0⟩ (iterFuel t.pool)
        ⟨t.pool, 0, [], [], []⟩ 0).counter := by
    rw [hft]; rfl
  have hnum' : ∀ u, u < vs.length →
      (getNode (finalizeTree t).pool (vs.getD u 0)).number = u := by
    intro u hu
    rw [hApool]
    exact hnum u hu
  have hcount : (finalizeTree t).nodeCount = vs.length := by
    rw [hAcnt, hcnt]
  have hmemidx : ∀ j, j ∈ vs → ∃ u, u < vs.length ∧ vs.getD u 0 = j := by
    intro j hj
    obtain ⟨u, hu, hju⟩ := List.mem_iff_getElem.mp hj
    exact ⟨u, hu, by rw [List.getD_eq_getElem _ _ hu]; exact hju⟩
  refine ⟨by rw [hft], finalizeTree_idem t,
    fun fuel t1 nw k v t2 h => insertNetwork_clears_flag fuel t1 nw k v t2 h,
    vs, hvs, hnd, hmem, hgd0, hcount, hnum', ?_, ?_, ?_⟩
  · have h := hnum' 0 hlen0
    rw [hgd0] at h
    exact h
  · intro j hr
    obtain ⟨u, hu, hju⟩ := hmemidx j ((hmem j).mpr hr)
    rw [← hju, hnum' u hu, hcount]
    exact hu
  · intro j j' hr hr' heq
    obtain ⟨u, hu, hju⟩ := hmemidx j ((hmem j).mpr hr)
    obtain ⟨u', hu', hju'⟩ := hmemidx j' ((hmem j').mpr hr')
    rw [← hju, hnum' u hu, ← hju', hnum' u' hu'] at heq
    rw [← hju, ← hju', heq]

theorem c3_finalize_numbering_witness :
    Bounded c3aTree.pool ∧ 0 < c3aTree.pool.length ∧ c3aTree.isFinalized = false ∧
    ((finalizeTree c3aTree).isFinalized = true ∧
     finalizeTree (finalizeTree c3aTree) = finalizeTree c3aTree ∧
     (∀ fuel t1 nw k v t2, insertNetwork fuel t1 nw k v = some (some t2) →
       t2.isFinalized = false) ∧
     ∃ vs : List Nat,
       (startIteration { c3aTree with nodeCount := 0 }
         ⟨c3aTree.recordSize, 0, fun _ => 0⟩ .assign).seen = vs ∧
       vs.Nodup ∧
       (∀ j, j ∈ vs ↔ Reaches c3aTree.pool 0 j) ∧
       vs.getD 0 0 = 0 ∧
       (finalizeTree c3aTree).nodeCount = vs.length ∧
       (∀ u, u < vs.length →
         (getNode (finalizeTree c3aTree).pool (vs.getD u 0)).number = u) ∧
       (getNode (finalizeTree c3aTree).pool 0).number = 0 ∧
       (∀ j, Reaches c3aTree.pool 0 j →
         (getNode (finalizeTree c3aTree).pool j).number < (finalizeTree c3aTree).nodeCount) ∧
       (∀ j j', Reaches c3aTree.pool 0 j → Reaches c3aTree.pool 0 j' →
         (getNode (finalizeTree c3aTree).pool j).number =
           (getNode (finalizeTree c3aTree).pool j').number →
         j = j')) := by
  have hbw : Bounded c3aTree.pool := bounded_of_checkEdges (by decide)
  exact ⟨hbw, by decide, by decide,
    c3_finalize_numbering c3aTree hbw (by decide) (by decide)⟩

theorem length_growChain (bs : List Nat) (d0 j : Nat) :
    (growChain bs d0 j).length = j + 1 := by
  simp [growChain]

theorem length_chainPool (bs : List Nat) (d0 S : Nat) (k : MKey) :
    (chainPool bs d0 S k).length = S + 1 := by
  simp [chainPool]

theorem length_sagaPool (s0 : Bool) (k : MKey) (bs : List Nat) (d0 j : Nat) (hj : 1 ≤ j) :
    (sagaPool s0 k bs d0 j).length = j + 1 := by
  simp [sagaPool]
  omega

theorem getNode_map_append_lt {f : Nat → MNode} {i j : Nat} (rest : Pool) (h : i < j) :
    getNode ((List.range j).map f ++ rest) i = f i := by
  rw [getNode_eq_getElem, List.getElem?_append_left (by simpa using h)]
  simp [List.getElem?_map, List.getElem?_range h]

theorem getNode_growChain_lt (bs : List Nat) (d0 : Nat) {i j : Nat} (h : i < j) :
    getNode (growChain bs d0 j) i = linkNode bs d0 i :=
  getNode_map_append_lt _ h

theorem getNode_growChain_self (bs : List Nat) (d0 j : Nat) :
    getNode (growChain bs d0 j) j = emptyMNode := by
  have h : j = ((List.range j).map (linkNode bs d0)).length := by simp
  rw [growChain]
  rw [show getNode ((List.range j).map (linkNode bs d0) ++ [emptyMNode]) j =
    getNode ((List.range j).map (linkNode bs d0) ++ [emptyMNode])
      ((List.range j).map (linkNode bs d0)).length from by rw [← h]]
  exact getNode_append_self _ _

theorem getNode_chainPool_lt (bs : List Nat) (d0 S : Nat) (k : MKey) {i : Nat} (h : i < S) :
    getNode (chainPool bs d0 S k) i = linkNode bs d0 i :=
  getNode_map_append_lt _ h

theorem getNode_chainPool_self (bs : List Nat) (d0 S : Nat) (k : MKey) :
    getNode (chainPool bs d0 S k) S = dataNode (networkBit bs d0 (d0 - S)) k := by
  have h : S = ((List.range S).map (linkNode bs d0)).length := by simp
  rw [chainPool]
  rw [show getNode ((List.range S).map (linkNode bs d0) ++
      [dataNode (networkBit bs d0 (d0 - S)) k]) S =
    getNode ((List.range S).map (linkNode bs d0) ++
      [dataNode (networkBit bs d0 (d0 - S)) k])
      ((List.range S).map (linkNode bs d0)).length from by rw [← h]]
  exact getNode_append_self _ _

theorem getNode_sagaPool_zero (s0 : Bool) (k : MKey) (bs : List Nat) (d0 j : Nat) :
    getNode (sagaPool s0 k bs d0 j) 0 = mixNode s0 k := rfl

theorem getNode_sagaPool_mid (s0 : Bool) (k : MKey) (bs : List Nat) (d0 : Nat) {i j : Nat}
    (h1 : 1 ≤ i) (h2 : i < j) :
    getNode (sagaPool s0 k bs d0 j) i = linkNode bs d0 i := by
  obtain ⟨u, rfl⟩ : ∃ u, i = u + 1 := ⟨i - 1, by omega⟩
  show getNode (_ :: _) (u + 1) = _
  rw [show getNode (mixNode s0 k :: ((List.range (j - 1)).map (fun u => linkNode bs d0 (u + 1))
      ++ [emptyMNode])) (u + 1) =
    getNode ((List.range (j - 1)).map (fun u => linkNode bs d0 (u + 1)) ++ [emptyMNode]) u
    from by simp [getNode]]
  rw [getNode_map_append_lt _ (by omega : u < j - 1)]

theorem getNode_sagaPool_last (s0 : Bool) (k : MKey) (bs : List Nat) (d0 j : Nat)
    (hj : 1 ≤ j) :
    getNode (sagaPool s0 k bs d0 j) j = emptyMNode := by
  obtain ⟨u, rfl⟩ : ∃ u, j = u + 1 := ⟨j - 1, by omega⟩
  rw [show getNode (sagaPool s0 k bs d0 (u + 1)) (u + 1) =
    getNode ((List.range u).map (fun t => linkNode bs d0 (t + 1)) ++ [emptyMNode]) u
    from by simp [sagaPool, getNode]]
  have h : u = ((List.range u).map (fun t => linkNode bs d0 (t + 1))).length := by simp
  rw [show getNode ((List.range u).map (fun t => linkNode bs d0 (t + 1)) ++ [emptyMNode]) u =
    getNode ((List.range u).map (fun t => linkNode bs d0 (t + 1)) ++ [emptyMNode])
      ((List.range u).map (fun t => linkNode bs d0 (t + 1))).length from by rw [← h]]
  exact getNode_append_self _ _

theorem getSide_linkNode (bs : List Nat) (d0 j : Nat) (b : Bool) :
    getSide (linkNode bs d0 j) b =
      if b = networkBit bs d0 (d0 - j) then .node (j + 1) else .empty := by
  by_cases h : networkBit bs d0 (d0 - j) <;> cases b <;> simp [linkNode, getSide, h]

theorem getSide_dataNode (b : Bool) (k : MKey) (b' : Bool) :
    getSide (dataNode b k) b' = if b' = b then .data k else .empty := by
  by_cases h : b <;> cases b' <;> simp [dataNode, getSide, h]

theorem getSide_mixNode (s0 : Bool) (k : MKey) (b : Bool) :
    getSide (mixNode s0 k) b = if b = s0 then .data k else .node 1 := by
  by_cases h : s0 <;> cases b <;> simp [mixNode, getSide, h]

theorem set_append_len {α : Type} (l1 l2 : List α) (a : α) :
    (l1 ++ l2).set l1.length a = l1 ++ l2.set 0 a := by
  induction l1 with
  | nil => rfl
  | cons x rest ih => simp [List.set, ih]

theorem growChain_succ (bs : List Nat) (d0 j : Nat) :
    setSide (growChain bs d0 j ++ [emptyMNode]) j (networkBit bs d0 (d0 - j))
      (.node (j + 1)) = growChain bs d0 (j + 1) := by
  have hlen : ((List.range j).map (linkNode bs d0)).length = j := by simp
  have hget : getNode (growChain bs d0 j ++ [emptyMNode]) j = emptyMNode := by
    rw [getNode_append_lt _ _ (by rw [length_growChain]; omega)]
    exact getNode_growChain_self bs d0 j
  rw [setSide, hget]
  have hnode : (if networkBit bs d0 (d0 - j) then
      { emptyMNode with right := MRecord.node (j + 1) }
    else { emptyMNode with left := MRecord.node (j + 1) }) = linkNode bs d0 j := by
    by_cases h : networkBit bs d0 (d0 - j) <;> simp [linkNode, emptyMNode, h]
  rw [hnode, growChain, List.append_assoc]
  have hs := set_append_len ((List.range j).map (linkNode bs d0))
    ([emptyMNode] ++ [emptyMNode]) (linkNode bs d0 j)
  rw [hlen] at hs
  rw [hs, growChain, List.range_succ, List.map_append]
  simp

theorem chainPool_eq_setSide (bs : List Nat) (d0 S : Nat) (k : MKey) :
    setSide (growChain bs d0 S) S (networkBit bs d0 (d0 - S)) (.data k) =
      chainPool bs d0 S k := by
  have hlen : ((List.range S).map (linkNode bs d0)).length = S := by simp
  have hget : getNode (growChain bs d0 S) S = emptyMNode := getNode_growChain_self bs d0 S
  rw [setSide, hget]
  have hnode : (if networkBit bs d0 (d0 - S) then
      { emptyMNode with right := MRecord.data k }
    else { emptyMNode with left := MRecord.data k }) =
      dataNode (networkBit bs d0 (d0 - S)) k := by
    by_cases h : networkBit bs d0 (d0 - S) <;> simp [dataNode, emptyMNode, h]
  rw [hnode, growChain]
  have hs := set_append_len ((List.range S).map (linkNode bs d0))
    [emptyMNode] (dataNode (networkBit bs d0 (d0 - S)) k)
  rw [hlen] at hs
  rw [hs]
  rfl

theorem sagaPool_start (s0 : Bool) (k : MKey) (bs : List Nat) (d0 : Nat) :
    setSide ([dataNode s0 k] ++ [emptyMNode]) 0 (!s0) (.node 1) =
      sagaPool s0 k bs d0 1 := by
  by_cases h : s0 <;>
    simp [setSide, dataNode, mixNode, sagaPool, getNode, emptyMNode, h, List.set]

theorem sagaPool_succ (s0 : Bool) (k : MKey) (bs : List Nat) (d0 j : Nat) (hj : 1 ≤ j) :
    setSide (sagaPool s0 k bs d0 j ++ [emptyMNode]) j (networkBit bs d0 (d0 - j))
      (.node (j + 1)) = sagaPool s0 k bs d0 (j + 1) := by
  obtain ⟨u, rfl⟩ : ∃ u, j = u + 1 := ⟨j - 1, by omega⟩
  have hlen : ((List.range u).map (fun t => linkNode bs d0 (t + 1))).length = u := by simp
  have hget : getNode (sagaPool s0 k bs d0 (u + 1) ++ [emptyMNode]) (u + 1) = emptyMNode := by
    rw [getNode_append_lt _ _ (by rw [length_sagaPool _ _ _ _ _ (by omega)]; omega)]
    exact getNode_sagaPool_last s0 k bs d0 (u + 1) (by omega)
  rw [setSide, hget]
  have hnode : (if networkBit bs d0 (d0 - (u + 1)) then
      { emptyMNode with right := MRecord.node (u + 1 + 1) }
    else { emptyMNode with left := MRecord.node (u + 1 + 1) }) =
      linkNode bs d0 (u + 1) := by
    by_cases h : networkBit bs d0 (d0 - (u + 1)) <;> simp [linkNode, emptyMNode, h]
  rw [hnode]
  show (mixNode s0 k :: ((List.range u).map (fun t => linkNode bs d0 (t + 1)) ++ [emptyMNode]
    ++ [emptyMNode])).set (u + 1) (linkNode bs d0 (u + 1)) = _
  rw [List.set]
  rw [List.append_assoc]
  have hs := set_append_len ((List.range u).map (fun t => linkNode bs d0 (t + 1)))
    ([emptyMNode] ++ [emptyMNode]) (linkNode bs d0 (u + 1))
  rw [hlen] at hs
  rw [hs]
  show _ = mixNode s0 k :: ((List.range (u + 1)).map (fun t => linkNode bs d0 (t + 1))
    ++ [emptyMNode])
  rw [List.range_succ, List.map_append]
  simp

theorem findSteps_zero_of_wrap (d0 m : Nat) (h1 : d0 + 2 ≤ m) (h2 : m ≤ 255)
    (hd : d0 ≤ 254) : findSteps d0 m = 0 := by
  rw [findSteps, lastBit]
  have he : ((d0 : Int) + 1 - m) % 256 = (d0 : Int) + 257 - m := by omega
  rw [he]
  omega

theorem findGo_grow (bs : List Nat) (d0 : Nat) :
    ∀ (n i : Nat), i + n ≤ d0 →
      findGo true (growChain bs d0 i) bs d0 i (d0 - i) n =
        (growChain bs d0 (i + n), i + n, d0 - (i + n)) := by
  intro n
  induction n with
  | zero => intro i _; simp [findGo]
  | succ n ih =>
    intro i hle
    have hrec : getSide (getNode (growChain bs d0 i) i) (networkBit bs d0 (d0 - i)) =
        .empty := by
      rw [getNode_growChain_self, empty_getSide]
    rw [findGo, hrec]
    show findGo true (setSide (growChain bs d0 i ++ [emptyMNode]) i
      (networkBit bs d0 (d0 - i)) (.node (growChain bs d0 i).length)) bs d0
      (growChain bs d0 i).length (d0 - i - 1) n = _
    rw [length_growChain, growChain_succ]
    have h1 : d0 - i - 1 = d0 - (i + 1) := by omega
    have h2 : i + (n + 1) = (i + 1) + n := by omega
    rw [h1, h2]
    exact ih (i + 1) (by omega)

theorem findGo_follow_links (mat : Bool) (P : Pool) (bs : List Nat) (d0 : Nat) :
    ∀ (n i : Nat),
      (∀ u, i ≤ u → u < i + n →
        getSide (getNode P u) (networkBit bs d0 (d0 - u)) = .node (u + 1)) →
      findGo mat P bs d0 i (d0 - i) n = (P, i + n, d0 - (i + n)) := by
  intro n
  induction n with
  | zero => intro i _; simp [findGo]
  | succ n ih =>
    intro i hl
    rw [findGo, hl i (le_refl i) (by omega)]
    show findGo mat P bs d0 (i + 1) (d0 - i - 1) n = _
    have h1 : d0 - i - 1 = d0 - (i + 1) := by omega
    have h2 : i + (n + 1) = (i + 1) + n := by omega
    rw [h1, h2]
    exact ih (i + 1) (fun u hu1 hu2 => hl u (by omega) (by omega))

theorem findGo_saga_grow (s0 : Bool) (k : MKey) (bs : List Nat) (d0 : Nat) :
    ∀ (n j : Nat), 1 ≤ j → j + n ≤ d0 →
      findGo true (sagaPool s0 k bs d0 j) bs d0 j (d0 - j) n =
        (sagaPool s0 k bs d0 (j + n), j + n, d0 - (j + n)) := by
  intro n
  induction n with
  | zero => intro j _ _; simp [findGo]
  | succ n ih =>
    intro j hj hle
    have hrec : getSide (getNode (sagaPool s0 k bs d0 j) j) (networkBit bs d0 (d0 - j)) =
        .empty := by
      rw [getNode_sagaPool_last _ _ _ _ _ hj, empty_getSide]
    rw [findGo, hrec]
    show findGo true (setSide (sagaPool s0 k bs d0 j ++ [emptyMNode]) j
      (networkBit bs d0 (d0 - j)) (.node (sagaPool s0 k bs d0 j).length)) bs d0
      (sagaPool s0 k bs d0 j).length (d0 - j - 1) n = _
    rw [length_sagaPool _ _ _ _ _ hj, sagaPool_succ _ _ _ _ _ hj]
    have h1 : d0 - j - 1 = d0 - (j + 1) := by omega
    have h2 : j + (n + 1) = (j + 1) + n := by omega
    rw [h1, h2]
    exact ih (j + 1) (by omega) (by omega)

theorem setSide_setSide_same (p : Pool) (i : Nat) (b : Bool) (r r' : MRecord) :
    setSide (setSide p i b r) i b r' = setSide p i b r' := by
  by_cases hl : i < p.length
  · have hn : getNode (setSide p i b r) i =
        (if b then { getNode p i with right := r } else { getNode p i with left := r }) := by
      rw [getNode_setSide]
      exact if_pos ⟨rfl, hl⟩
    show (setSide p i b r).set i (if b then { getNode (setSide p i b r) i with right := r' }
      else { getNode (setSide p i b r) i with left := r' }) = _
    rw [hn]
    show (p.set i (if b then { getNode p i with right := r }
      else { getNode p i with left := r })).set i _ = _
    rw [List.set_set]
    show _ = p.set i (if b then { getNode p i with right := r' }
      else { getNode p i with left := r' })
    congr 1
    cases b <;> simp
  · have hin : setSide p i b r = p := by
      rw [setSide, List.set_eq_of_length_le (Nat.le_of_not_lt hl)]
    rw [hin]

theorem insertRecord_fresh (bs : List Nat) (d0 m fam : Nat) (k : MKey) (fuel : Nat)
    (hS : findSteps d0 m ≤ d0) :
    insertRecordForNetwork [emptyMNode] ⟨bs, m, d0, fam⟩ (.data k) (fuel + 1) =
      some (chainPool bs d0 (findSteps d0 m) k) := by
  have hgrow : findNodeForNetwork true [emptyMNode] ⟨bs, m, d0, fam⟩ =
      (growChain bs d0 (findSteps d0 m), findSteps d0 m, d0 - findSteps d0 m) := by
    show findGo true [emptyMNode] bs d0 0 d0 (findSteps d0 m) = _
    rw [show ([emptyMNode] : Pool) = growChain bs d0 0 from by simp [growChain]]
    have h := findGo_grow bs d0 (findSteps d0 m) 0 (by omega)
    rw [show d0 - 0 = d0 from rfl] at h
    simpa using h
  rw [insertRecord_succ_unfold _ _ k fuel _ _ _ hgrow]
  have hcond : getSide (getNode (growChain bs d0 (findSteps d0 m)) (findSteps d0 m))
      (!networkBit (⟨bs, m, d0, fam⟩ : MNetwork).bytes
        (⟨bs, m, d0, fam⟩ : MNetwork).maxDepth0 (d0 - findSteps d0 m)) = MRecord.empty := by
    rw [getNode_growChain_self, empty_getSide]
  rw [hcond, if_neg (by simp : ¬(MRecord.empty = MRecord.data k))]
  simp only [Option.map_some']
  show some (setSide (growChain bs d0 (findSteps d0 m)) (findSteps d0 m)
    (networkBit bs d0 (d0 - findSteps d0 m)) (.data k)) = _
  rw [chainPool_eq_setSide]

theorem insertRecord_second (bs0 bs1 : List Nat) (d0 m fam : Nat) (k : MKey) (fuel : Nat)
    (hd : d0 ≤ 254) (hm2 : 2 ≤ m) (hmle : m ≤ d0 + 1)
    (hagree : ∀ i, i < m - 1 → networkBit bs1 d0 (d0 - i) = networkBit bs0 d0 (d0 - i))
    (hdiff : networkBit bs1 d0 (d0 - (m - 1)) = !networkBit bs0 d0 (d0 - (m - 1))) :
    insertRecordForNetwork (chainPool bs0 d0 (m - 1) k) ⟨bs1, m, d0, fam⟩ (.data k)
      (fuel + 2) =
      some (setSide (setSide (chainPool bs0 d0 (m - 1) k) (m - 2)
        (networkBit bs1 d0 (d0 - (m - 2))) (.data k)) (m - 1)
        (networkBit bs1 d0 (d0 - (m - 1))) (.data k)) := by
  have hlink : ∀ u, u < m - 1 →
      getSide (getNode (chainPool bs0 d0 (m - 1) k) u) (networkBit bs1 d0 (d0 - u)) =
        .node (u + 1) := by
    intro u hu
    rw [getNode_chainPool_lt _ _ _ _ hu, hagree u hu, getSide_linkNode, if_pos rfl]
  have hfollow : ∀ (mt : Bool) (n : Nat), n ≤ m - 1 →
      findGo mt (chainPool bs0 d0 (m - 1) k) bs1 d0 0 d0 n =
        (chainPool bs0 d0 (m - 1) k, n, d0 - n) := by
    intro mt n hn
    have h := findGo_follow_links mt (chainPool bs0 d0 (m - 1) k) bs1 d0 n 0
      (fun u hu1 hu2 => hlink u (by omega))
    rw [show d0 - 0 = d0 from rfl] at h
    simpa using h
  have hfr1 : findNodeForNetwork true (chainPool bs0 d0 (m - 1) k) ⟨bs1, m, d0, fam⟩ =
      (chainPool bs0 d0 (m - 1) k, m - 1, d0 - (m - 1)) := by
    show findGo true (chainPool bs0 d0 (m - 1) k) bs1 d0 0 d0 (findSteps d0 m) = _
    rw [findSteps_eq_of_le d0 m (by omega) hmle hd]
    exact hfollow true (m - 1) (le_refl _)
  rw [insertRecord_succ_unfold _ _ k (fuel + 1) _ _ _ hfr1]
  have hcond1 : getSide (getNode (chainPool bs0 d0 (m - 1) k) (m - 1))
      (!networkBit (⟨bs1, m, d0, fam⟩ : MNetwork).bytes
        (⟨bs1, m, d0, fam⟩ : MNetwork).maxDepth0 (d0 - (m - 1))) = MRecord.data k := by
    show getSide (getNode (chainPool bs0 d0 (m - 1) k) (m - 1))
      (!networkBit bs1 d0 (d0 - (m - 1))) = MRecord.data k
    rw [getNode_chainPool_self, hdiff, Bool.not_not, getSide_dataNode, if_pos rfl]
  rw [hcond1, if_pos rfl]
  have hmask : ({ (⟨bs1, m, d0, fam⟩ : MNetwork) with
      maskLength := ((⟨bs1, m, d0, fam⟩ : MNetwork).maskLength + 255) % 256 } : MNetwork) =
      (⟨bs1, m - 1, d0, fam⟩ : MNetwork) := by
    show (⟨bs1, (m + 255) % 256, d0, fam⟩ : MNetwork) = _
    rw [show (m + 255) % 256 = m - 1 from by omega]
  rw [hmask]
  have hfr2 : findNodeForNetwork true (chainPool bs0 d0 (m - 1) k) ⟨bs1, m - 1, d0, fam⟩ =
      (chainPool bs0 d0 (m - 1) k, m - 2, d0 - (m - 2)) := by
    show findGo true (chainPool bs0 d0 (m - 1) k) bs1 d0 0 d0 (findSteps d0 (m - 1)) = _
    rw [findSteps_eq_of_le d0 (m - 1) (by omega) (by omega) hd,
      show m - 1 - 1 = m - 2 from by omega]
    exact hfollow true (m - 2) (by omega)
  rw [insertRecord_succ_unfold _ _ k fuel _ _ _ hfr2]
  have hcond2 : getSide (getNode (chainPool bs0 d0 (m - 1) k) (m - 2))
      (!networkBit (⟨bs1, m - 1, d0, fam⟩ : MNetwork).bytes
        (⟨bs1, m - 1, d0, fam⟩ : MNetwork).maxDepth0 (d0 - (m - 2))) = MRecord.empty := by
    show getSide (getNode (chainPool bs0 d0 (m - 1) k) (m - 2))
      (!networkBit bs1 d0 (d0 - (m - 2))) = MRecord.empty
    rw [getNode_chainPool_lt _ _ _ _ (by omega : m - 2 < m - 1),
      hagree (m - 2) (by omega), getSide_linkNode,
      if_neg (by cases networkBit bs0 d0 (d0 - (m - 2)) <;> simp)]
  rw [hcond2, if_neg (by simp : ¬(MRecord.empty = MRecord.data k))]
  simp only [Option.map_some']

theorem chainPool_zero (bs0 : List Nat) (d0 : Nat) (k : MKey) :
    chainPool bs0 d0 0 k = [dataNode (networkBit bs0 d0 d0) k] := by
  simp [chainPool]

theorem getNode_chainPool_zero (bs0 : List Nat) (d0 : Nat) (k : MKey) :
    getNode (chainPool bs0 d0 0 k) 0 = dataNode (networkBit bs0 d0 d0) k := by
  rw [chainPool_zero]
  rfl

theorem findGo_saga_full (bs0 bs1 : List Nat) (d0 : Nat) (k : MKey)
    (hd1 : 1 ≤ d0)
    (hdiff : networkBit bs1 d0 d0 = !networkBit bs0 d0 d0) :
    findGo true (chainPool bs0 d0 0 k) bs1 d0 0 d0 d0 =
      (sagaPool (networkBit bs0 d0 d0) k bs1 d0 d0, d0, 0) := by
  obtain ⟨e, he⟩ : ∃ e, d0 = e + 1 := ⟨d0 - 1, by omega⟩
  have hrec : getSide (getNode (chainPool bs0 d0 0 k) 0) (networkBit bs1 d0 d0) =
      .empty := by
    rw [getNode_chainPool_zero, hdiff, getSide_dataNode,
      if_neg (by cases networkBit bs0 d0 d0 <;> simp)]
  rw [he, findGo]
  rw [← he]
  rw [hrec]
  show findGo true (setSide (chainPool bs0 d0 0 k ++ [emptyMNode]) 0 (networkBit bs1 d0 d0)
    (.node (chainPool bs0 d0 0 k).length)) bs1 d0 (chainPool bs0 d0 0 k).length
    (d0 - 1) e = _
  rw [length_chainPool, chainPool_zero, hdiff,
    sagaPool_start (networkBit bs0 d0 d0) k bs1 d0]
  have h := findGo_saga_grow (networkBit bs0 d0 d0) k bs1 d0 e 1 (le_refl 1) (by omega)
  rw [show (1 : Nat) + e = d0 from by omega] at h
  rw [show d0 - 1 = d0 - 1 from rfl]
  rw [show (0 : Nat) + 1 = 1 from rfl]
  exact h.trans (by rw [show d0 - d0 = 0 from by omega])

theorem insertRecord_saga (bs0 bs1 : List Nat) (d0 fam : Nat) (k : MKey)
    (hd : d0 ≤ 254) (hd1 : 1 ≤ d0)
    (hdiff : networkBit bs1 d0 d0 = !networkBit bs0 d0 d0) :
    ∀ (n fuel : Nat), d0 + 1 + n ≤ 255 → n + 1 ≤ fuel →
      insertRecordForNetwork (chainPool bs0 d0 0 k) ⟨bs1, d0 + 1 + n, d0, fam⟩
        (.data k) fuel =
        some (if n = 0 then sagaLeafPool bs0 bs1 d0 k else sagaFinalPool bs0 bs1 d0 k) := by
  intro n
  induction n with
  | zero =>
    intro fuel _ hfuel
    obtain ⟨f, rfl⟩ : ∃ f, fuel = f + 1 := ⟨fuel - 1, by omega⟩
    have hfr : findNodeForNetwork true (chainPool bs0 d0 0 k) ⟨bs1, d0 + 1 + 0, d0, fam⟩ =
        (sagaPool (networkBit bs0 d0 d0) k bs1 d0 d0, d0, 0) := by
      show findGo true (chainPool bs0 d0 0 k) bs1 d0 0 d0 (findSteps d0 (d0 + 1 + 0)) = _
      rw [show d0 + 1 + 0 = d0 + 1 from rfl,
        findSteps_eq_of_le d0 (d0 + 1) (by omega) (le_refl _) hd,
        show d0 + 1 - 1 = d0 from by omega]
      exact findGo_saga_full bs0 bs1 d0 k hd1 hdiff
    rw [insertRecord_succ_unfold _ _ k f _ _ _ hfr]
    have hcond : getSide (getNode (sagaPool (networkBit bs0 d0 d0) k bs1 d0 d0) d0)
        (!networkBit (⟨bs1, d0 + 1 + 0, d0, fam⟩ : MNetwork).bytes
          (⟨bs1, d0 + 1 + 0, d0, fam⟩ : MNetwork).maxDepth0 0) = MRecord.empty := by
      show getSide (getNode (sagaPool (networkBit bs0 d0 d0) k bs1 d0 d0) d0)
        (!networkBit bs1 d0 0) = MRecord.empty
      rw [getNode_sagaPool_last _ _ _ _ _ hd1, empty_getSide]
    rw [hcond, if_neg (by simp : ¬(MRecord.empty = MRecord.data k))]
    simp only [Option.map_some', if_pos rfl]
    rfl
  | succ n ih =>
    intro fuel hle hfuel
    obtain ⟨f, rfl⟩ : ∃ f, fuel = f + 1 := ⟨fuel - 1, by omega⟩
    have hfr : findNodeForNetwork true (chainPool bs0 d0 0 k)
        ⟨bs1, d0 + 1 + (n + 1), d0, fam⟩ = (chainPool bs0 d0 0 k, 0, d0) := by
      show findGo true (chainPool bs0 d0 0 k) bs1 d0 0 d0
        (findSteps d0 (d0 + 1 + (n + 1))) = _
      rw [findSteps_zero_of_wrap d0 (d0 + 1 + (n + 1)) (by omega) (by omega) hd]
      rfl
    rw [insertRecord_succ_unfold _ _ k f _ _ _ hfr]
    have hcond : getSide (getNode (chainPool bs0 d0 0 k) 0)
        (!networkBit (⟨bs1, d0 + 1 + (n + 1), d0, fam⟩ : MNetwork).bytes
          (⟨bs1, d0 + 1 + (n + 1), d0, fam⟩ : MNetwork).maxDepth0 d0) = MRecord.data k := by
      show getSide (getNode (chainPool bs0 d0 0 k) 0) (!networkBit bs1 d0 d0) = MRecord.data k
      rw [getNode_chainPool_zero, hdiff, Bool.not_not, getSide_dataNode, if_pos rfl]
    rw [hcond, if_pos rfl]
    have hmask : ({ (⟨bs1, d0 + 1 + (n + 1), d0, fam⟩ : MNetwork) with
        maskLength := ((⟨bs1, d0 + 1 + (n + 1), d0, fam⟩ : MNetwork).maskLength + 255) % 256 }
        : MNetwork) = (⟨bs1, d0 + 1 + n, d0, fam⟩ : MNetwork) := by
      show (⟨bs1, (d0 + 1 + (n + 1) + 255) % 256, d0, fam⟩ : MNetwork) = _
      rw [show (d0 + 1 + (n + 1) + 255) % 256 = d0 + 1 + n from by omega]
    rw [hmask, ih f (by omega) (by omega)]
    simp only [Option.map_some']
    by_cases hn : n = 0
    · subst hn
      rw [if_pos rfl, if_neg (by omega : ¬(0 : Nat) + 1 = 0)]
      rfl
    · rw [if_neg hn, if_neg (by omega : ¬n + 1 = 0)]
      show some (setSide (sagaFinalPool bs0 bs1 d0 k) 0 (networkBit bs1 d0 d0) (.data k)) = _
      rw [sagaFinalPool, setSide_setSide_same]

theorem insertRecord_m1 (bs0 bs1 : List Nat) (d0 fam : Nat) (k : MKey)
    (hd : d0 ≤ 254) (hd1 : 1 ≤ d0)
    (hdiff : networkBit bs1 d0 d0 = !networkBit bs0 d0 d0) :
    ∀ fuel : Nat, 257 - d0 ≤ fuel →
      insertRecordForNetwork (chainPool bs0 d0 0 k) ⟨bs1, 1, d0, fam⟩ (.data k) fuel =
        some (sagaFinalPool bs0 bs1 d0 k) := by
  have hwrite : ∀ (q : Option Pool), q = some (if 254 - d0 = 0 then sagaLeafPool bs0 bs1 d0 k
      else sagaFinalPool bs0 bs1 d0 k) →
      q.map (fun p2 => setSide p2 0 (networkBit bs1 d0 d0) (.data k)) =
        some (sagaFinalPool bs0 bs1 d0 k) := by
    intro q hq
    rw [hq]
    simp only [Option.map_some']
    by_cases h : 254 - d0 = 0
    · rw [if_pos h]
      rfl
    · rw [if_neg h]
      show some (setSide (sagaFinalPool bs0 bs1 d0 k) 0 (networkBit bs1 d0 d0) (.data k)) = _
      rw [sagaFinalPool, setSide_setSide_same]
  have hmergecond : ∀ (mu : Nat), getSide (getNode (chainPool bs0 d0 0 k) 0)
      (!networkBit (⟨bs1, mu, d0, fam⟩ : MNetwork).bytes
        (⟨bs1, mu, d0, fam⟩ : MNetwork).maxDepth0 d0) = MRecord.data k := by
    intro mu
    show getSide (getNode (chainPool bs0 d0 0 k) 0) (!networkBit bs1 d0 d0) = MRecord.data k
    rw [getNode_chainPool_zero, hdiff, Bool.not_not, getSide_dataNode, if_pos rfl]
  intro fuel hfuel
  obtain ⟨f, rfl⟩ : ∃ f, fuel = f + 1 := ⟨fuel - 1, by omega⟩
  have hfr1 : findNodeForNetwork true (chainPool bs0 d0 0 k) ⟨bs1, 1, d0, fam⟩ =
      (chainPool bs0 d0 0 k, 0, d0) := by
    show findGo true (chainPool bs0 d0 0 k) bs1 d0 0 d0 (findSteps d0 1) = _
    rw [findSteps_eq_of_le d0 1 (le_refl 1) (by omega) hd]
    rfl
  rw [insertRecord_succ_unfold _ _ k f _ _ _ hfr1, hmergecond 1, if_pos rfl]
  have hmask1 : ({ (⟨bs1, 1, d0, fam⟩ : MNetwork) with
      maskLength := ((⟨bs1, 1, d0, fam⟩ : MNetwork).maskLength + 255) % 256 } : MNetwork) =
      (⟨bs1, 0, d0, fam⟩ : MNetwork) := by
    show (⟨bs1, (1 + 255) % 256, d0, fam⟩ : MNetwork) = _
    rw [show (1 + 255) % 256 = 0 from by omega]
  rw [hmask1]
  obtain ⟨f2, rfl⟩ : ∃ f2, f = f2 + 1 := ⟨f - 1, by omega⟩
  have hfr0 : findNodeForNetwork true (chainPool bs0 d0 0 k) ⟨bs1, 0, d0, fam⟩ =
      (chainPool bs0 d0 0 k, 0, d0) := by
    show findGo true (chainPool bs0 d0 0 k) bs1 d0 0 d0 (findSteps d0 0) = _
    rw [findSteps_zero_of_m_zero d0 hd]
    rfl
  rw [insertRecord_succ_unfold _ _ k f2 _ _ _ hfr0, hmergecond 0, if_pos rfl]
  have hmask0 : ({ (⟨bs1, 0, d0, fam⟩ : MNetwork) with
      maskLength := ((⟨bs1, 0, d0, fam⟩ : MNetwork).maskLength + 255) % 256 } : MNetwork) =
      (⟨bs1, d0 + 1 + (254 - d0), d0, fam⟩ : MNetwork) := by
    show (⟨bs1, (0 + 255) % 256, d0, fam⟩ : MNetwork) = _
    rw [show (0 + 255) % 256 = d0 + 1 + (254 - d0) from by omega]
  rw [hmask0]
  rw [insertRecord_saga bs0 bs1 d0 fam k hd hd1 hdiff (254 - d0) f2 (by omega) (by omega)]
  simp only [Option.map_some']
  by_cases h : 254 - d0 = 0
  · rw [if_pos h]
    show some (setSide (setSide (sagaLeafPool bs0 bs1 d0 k) 0 (networkBit bs1 d0 d0)
      (.data k)) 0 (networkBit bs1 d0 d0) (.data k)) = some (sagaFinalPool bs0 bs1 d0 k)
    rw [setSide_setSide_same]
    rfl
  · rw [if_neg h]
    show some (setSide (setSide (sagaFinalPool bs0 bs1 d0 k) 0 (networkBit bs1 d0 d0)
      (.data k)) 0 (networkBit bs1 d0 d0) (.data k)) = some (sagaFinalPool bs0 bs1 d0 k)
    rw [setSide_setSide_same]
    show some (setSide (setSide (sagaLeafPool bs0 bs1 d0 k) 0 (networkBit bs1 d0 d0)
      (.data k)) 0 (networkBit bs1 d0 d0) (.data k)) = some (sagaFinalPool bs0 bs1 d0 k)
    rw [setSide_setSide_same]
    rfl

theorem haltSel_follow_links (P : Pool) (bs : List Nat) (d0 : Nat) :
    ∀ (n i r : Nat),
      (∀ u, i ≤ u → u < i + n →
        getSide (getNode P u) (networkBit bs d0 (d0 - u)) = .node (u + 1)) →
      haltSel P bs d0 i (d0 - i) (n + r) = haltSel P bs d0 (i + n) (d0 - (i + n)) r := by
  intro n
  induction n with
  | zero => intro i r _; simp
  | succ n ih =>
    intro i r hl
    rw [show n + 1 + r = (n + r) + 1 from by omega,
      haltSel_succ_node P bs d0 i (d0 - i) (n + r) (hl i (le_refl i) (by omega))]
    rw [show d0 - i - 1 = d0 - (i + 1) from by omega,
      show i + (n + 1) = (i + 1) + n from by omega]
    exact ih (i + 1) r (fun u h1 h2 => hl u (by omega) (by omega))

theorem childOf_chainPool (bs0 : List Nat) (d0 S : Nat) (k : MKey) (i j : Nat) :
    childOf (chainPool bs0 d0 S k) i j ↔ (i < S ∧ j = i + 1) := by
  constructor
  · rintro ⟨b, hb⟩
    by_cases hi : i < S
    · rw [getNode_chainPool_lt _ _ _ _ hi, getSide_linkNode] at hb
      split at hb
      · injection hb with hb
        exact ⟨hi, hb.symm⟩
      · exact absurd hb (by simp)
    · by_cases hi2 : i = S
      · subst hi2
        rw [getNode_chainPool_self, getSide_dataNode] at hb
        split at hb
        · exact absurd hb (by simp)
        · exact absurd hb (by simp)
      · rw [getNode_of_length_le _ (by rw [length_chainPool]; omega), empty_getSide] at hb
        exact absurd hb (by simp)
  · rintro ⟨hi, rfl⟩
    exact ⟨networkBit bs0 d0 (d0 - i),
      by rw [getNode_chainPool_lt _ _ _ _ hi, getSide_linkNode, if_pos rfl]⟩

theorem reaches_chain_iff (P : Pool) (N : Nat) (hN : 0 < N)
    (hchild : ∀ i j, i < N → (childOf P i j ↔ (i + 1 < N ∧ j = i + 1))) :
    ∀ j, Reaches P 0 j ↔ j < N := by
  intro j
  constructor
  · intro hr
    induction hr with
    | refl => exact hN
    | step hr hc ih =>
      obtain ⟨h1, h2⟩ := (hchild _ _ ih).mp hc
      omega
  · intro hj
    induction j with
    | zero => exact Reaches.refl 0
    | succ u ihu =>
      exact Reaches.step (ihu (by omega)) ((hchild u (u + 1) (by omega)).mpr ⟨hj, rfl⟩)

theorem finalize_count (t : MTree) (hb : Bounded t.pool) (h0 : 0 < t.pool.length)
    (hflag : t.isFinalized = false) (N : Nat)
    (hreach : ∀ j, Reaches t.pool 0 j ↔ j < N) :
    (finalizeTree t).nodeCount = N := by
  have hft : finalizeTree t = { assignNodeNumbers t with isFinalized := true } := by
    simp [finalizeTree, hflag]
  obtain ⟨vs, hvs, hnd, hmem, _, _, hcnt, _, _, _⟩ :=
    iter_root_spec t.pool ⟨t.recordSize, 0, fun _ => 0⟩ hb h0
  have hAcnt : (finalizeTree t).nodeCount =
      (iterateTree .assign ⟨t.recordSize, 0, fun _ => 0⟩ (iterFuel t.pool)
        ⟨t.pool, 0, [], [], []⟩ 0).counter := by
    rw [hft]
    rfl
  rw [hAcnt, hcnt]
  have hfin : vs.toFinset = Finset.range N := by
    ext j
    rw [List.mem_toFinset, Finset.mem_range, hmem j, hreach j]
  have hcard := List.toFinset_card_of_nodup hnd
  rw [← hcard, hfin, Finset.card_range]

theorem insertNetwork_of_record (fuel : Nat) (t : MTree) (nw : MNetwork) (k : MKey)
    (v : Nat) (p : Pool) (hrej : ¬(t.ipVersion = 4 ∧ nw.family = 6))
    (hrec : insertRecordForNetwork t.pool nw (.data k) fuel = some p) :
    insertNetwork fuel t nw k v =
      some (some { t with dataHash := hvStore t.dataHash k v, pool := p, isFinalized := false }) := by
  rw [insertNetwork, if_neg hrej, hrec]

theorem childOf_c2_iff (bs0 bs1 : List Nat) (d0 m : Nat) (k : MKey)
    (hm2 : 2 ≤ m)
    (hagm2 : networkBit bs1 d0 (d0 - (m - 2)) = networkBit bs0 d0 (d0 - (m - 2))) :
    ∀ i j, childOf (setSide (setSide (chainPool bs0 d0 (m - 1) k) (m - 2)
        (networkBit bs1 d0 (d0 - (m - 2))) (.data k)) (m - 1)
        (networkBit bs1 d0 (d0 - (m - 1))) (.data k)) i j ↔
      (i + 1 < m - 1 ∧ j = i + 1) := by
  intro i j
  constructor
  · rintro ⟨b, hb⟩
    rw [getSide_setSide] at hb
    split at hb
    · exact absurd hb (by simp)
    · rename_i h1
      rw [getSide_setSide] at hb
      split at hb
      · exact absurd hb (by simp)
      · rename_i h2
        obtain ⟨hi, rfl⟩ := (childOf_chainPool bs0 d0 (m - 1) k i j).mp ⟨b, hb⟩
        refine ⟨?_, rfl⟩
        by_contra hge
        have hieq : i = m - 2 := by omega
        subst hieq
        rw [getNode_chainPool_lt _ _ _ _ (by omega : m - 2 < m - 1),
          getSide_linkNode] at hb
        split at hb
        · rename_i h3
          exact h2 ⟨rfl, by rw [hagm2]; exact h3, by rw [length_chainPool]; omega⟩
        · exact absurd hb (by simp)
  · rintro ⟨hlt, rfl⟩
    refine ⟨networkBit bs0 d0 (d0 - i), ?_⟩
    rw [getSide_setSide, if_neg (fun h => absurd h.1 (by omega : ¬i = m - 1)),
      getSide_setSide, if_neg (fun h => absurd h.1 (by omega : ¬i = m - 2)),
      getNode_chainPool_lt _ _ _ _ (by omega : i < m - 1), getSide_linkNode, if_pos rfl]

theorem childOf_saga_iff (bs0 bs1 : List Nat) (d0 : Nat) (k : MKey) (hd1 : 1 ≤ d0)
    (hdiff : networkBit bs1 d0 d0 = !networkBit bs0 d0 d0) :
    ∀ i j, childOf (sagaFinalPool bs0 bs1 d0 k) i j ↔ (1 ≤ i ∧ i < d0 ∧ j = i + 1) := by
  have hlenG : (sagaPool (networkBit bs0 d0 d0) k bs1 d0 d0).length = d0 + 1 :=
    length_sagaPool _ _ _ _ _ hd1
  intro i j
  constructor
  · rintro ⟨b, hb⟩
    rw [sagaFinalPool, sagaLeafPool, getSide_setSide] at hb
    split at hb
    · exact absurd hb (by simp)
    · rename_i h1
      rw [getSide_setSide] at hb
      split at hb
      · exact absurd hb (by simp)
      · rename_i h2
        by_cases hi0 : i = 0
        · subst hi0
          rw [getNode_sagaPool_zero, getSide_mixNode] at hb
          split at hb
          · exact absurd hb (by simp)
          · rename_i h3
            exact absurd (⟨rfl, by rw [hdiff]; exact Bool.eq_not_of_ne h3,
              by rw [length_setSide, hlenG]; omega⟩ :
              (0 : Nat) = 0 ∧ b = networkBit bs1 d0 d0 ∧
                0 < (setSide (sagaPool (networkBit bs0 d0 d0) k bs1 d0 d0) d0
                  (networkBit bs1 d0 0) (.data k)).length) h1
        · by_cases hid : i = d0
          · subst hid
            rw [getNode_sagaPool_last _ _ _ _ _ hd1, empty_getSide] at hb
            exact absurd hb (by simp)
          · by_cases hilt : i < d0
            · have h1i : 1 ≤ i := by omega
              rw [getNode_sagaPool_mid _ _ _ _ h1i hilt, getSide_linkNode] at hb
              split at hb
              · injection hb with hb
                exact ⟨h1i, hilt, hb.symm⟩
              · exact absurd hb (by simp)
            · rw [getNode_of_length_le _ (by rw [hlenG]; omega), empty_getSide] at hb
              exact absurd hb (by simp)
  · rintro ⟨h1i, hilt, rfl⟩
    refine ⟨networkBit bs1 d0 (d0 - i), ?_⟩
    rw [sagaFinalPool, sagaLeafPool, getSide_setSide,
      if_neg (fun h => absurd h.1 (by omega : ¬i = 0)), getSide_setSide,
      if_neg (fun h => absurd h.1 (by omega : ¬i = d0)),
      getNode_sagaPool_mid _ _ _ _ h1i hilt, getSide_linkNode, if_pos rfl]

theorem haltSel_c2 (bs0 bs1 bsx : List Nat) (d0 m : Nat) (k : MKey)
    (hm2 : 2 ≤ m)
    (hagree : ∀ i, i < m - 1 → networkBit bs1 d0 (d0 - i) = networkBit bs0 d0 (d0 - i))
    (hagx : ∀ i, i < m - 1 → networkBit bsx d0 (d0 - i) = networkBit bs0 d0 (d0 - i)) :
    haltSel (setSide (setSide (chainPool bs0 d0 (m - 1) k) (m - 2)
        (networkBit bs1 d0 (d0 - (m - 2))) (.data k)) (m - 1)
        (networkBit bs1 d0 (d0 - (m - 1))) (.data k)) bsx d0 0 d0 (m - 1) = .data k := by
  have hlink : ∀ u, (0 : Nat) ≤ u → u < 0 + (m - 2) →
      getSide (getNode (setSide (setSide (chainPool bs0 d0 (m - 1) k) (m - 2)
        (networkBit bs1 d0 (d0 - (m - 2))) (.data k)) (m - 1)
        (networkBit bs1 d0 (d0 - (m - 1))) (.data k)) u)
        (networkBit bsx d0 (d0 - u)) = .node (u + 1) := by
    intro u _ hu
    rw [getSide_setSide, if_neg (fun h => absurd h.1 (by omega : ¬u = m - 1)),
      getSide_setSide, if_neg (fun h => absurd h.1 (by omega : ¬u = m - 2)),
      getNode_chainPool_lt _ _ _ _ (by omega : u < m - 1), hagx u (by omega),
      getSide_linkNode, if_pos rfl]
  have hw := haltSel_follow_links _ bsx d0 (m - 2) 0 1 hlink
  have hdata : getSide (getNode (setSide (setSide (chainPool bs0 d0 (m - 1) k) (m - 2)
      (networkBit bs1 d0 (d0 - (m - 2))) (.data k)) (m - 1)
      (networkBit bs1 d0 (d0 - (m - 1))) (.data k)) (0 + (m - 2)))
      (networkBit bsx d0 (d0 - (0 + (m - 2)))) = .data k := by
    rw [show (0 : Nat) + (m - 2) = m - 2 from by omega, getSide_setSide,
      if_neg (fun h => absurd h.1 (by omega : ¬m - 2 = m - 1)), getSide_setSide]
    rw [if_pos ⟨rfl, by rw [hagx (m - 2) (by omega), hagree (m - 2) (by omega)],
      by rw [length_chainPool]; omega⟩]
  generalize hP : setSide (setSide (chainPool bs0 d0 (m - 1) k) (m - 2)
    (networkBit bs1 d0 (d0 - (m - 2))) (MRecord.data k)) (m - 1)
    (networkBit bs1 d0 (d0 - (m - 1))) (MRecord.data k) = P at hw hdata ⊢
  have hw3 : haltSel P bsx d0 0 d0 (m - 2 + 1) =
      haltSel P bsx d0 (0 + (m - 2)) (d0 - (0 + (m - 2))) 1 := hw
  rw [show m - 1 = m - 2 + 1 from by omega, hw3,
    haltSel_succ_halt _ _ _ _ _ _ (by rw [hdata]; simp), hdata]

theorem haltSel_saga (bs0 bs1 bsx : List Nat) (d0 : Nat) (k : MKey) (hd1 : 1 ≤ d0)
    (hdiff : networkBit bs1 d0 d0 = !networkBit bs0 d0 d0)
    (hx : networkBit bsx d0 d0 = networkBit bs0 d0 d0 ∨
      networkBit bsx d0 d0 = networkBit bs1 d0 d0) :
    haltSel (sagaFinalPool bs0 bs1 d0 k) bsx d0 0 d0 0 = .data k := by
  rw [haltSel_zero, sagaFinalPool, sagaLeafPool, getSide_setSide]
  by_cases hcase : networkBit bsx d0 d0 = networkBit bs1 d0 d0
  · rw [if_pos ⟨rfl, hcase,
      by rw [length_setSide, length_sagaPool _ _ _ _ _ hd1]; omega⟩]
  · have hx0 : networkBit bsx d0 d0 = networkBit bs0 d0 d0 := by
      rcases hx with h | h
      · exact h
      · exact absurd h hcase
    rw [if_neg (fun h => hcase h.2.1), getSide_setSide,
      if_neg (fun h => absurd h.1 (by omega : ¬(0 : Nat) = d0)),
      getNode_sagaPool_zero, getSide_mixNode, if_pos hx0]

/-- C4: on a fresh tree, inserting two sibling `/m` prefixes (same first
`m - 1` bits, opposite bit `m - 1`) with byte-equal key `k` and value
`val`, in sequence, is observably equivalent to the single insertion of
their `/(m-1)` parent: both inserts succeed, the double-insert tree
contains both children, and its finalized node count equals the
single-parent-insert tree's.  Proved for every mask `1 ≤ m ≤ max_depth0
+ 1` of both address families, including the `m = 1` case whose sibling
merge wraps the `uint8_t` mask through 0, 255, ..., down to
`max_depth0 + 1`. -/
theorem c4_sibling_merge_equiv (v rs npa d0 m : Nat) (bs0 bs1 : List Nat) (k : MKey)
    (val fuel : Nat)
    (hv : (v = 4 ∧ d0 = 31) ∨ (v = 6 ∧ d0 = 127))
    (hm1 : 1 ≤ m) (hmle : m ≤ d0 + 1)
    (hagree : ∀ i, i < m - 1 → networkBit bs1 d0 (d0 - i) = networkBit bs0 d0 (d0 - i))
    (hdiff : networkBit bs1 d0 (d0 - (m - 1)) = !networkBit bs0 d0 (d0 - (m - 1)))
    (hfuel : 600 ≤ fuel) :
    ∃ t1 t2 tp : MTree,
      insertNetwork fuel (newTree v rs npa) ⟨bs0, m, d0, v⟩ k val = some (some t1) ∧
      insertNetwork fuel t1 ⟨bs1, m, d0, v⟩ k val = some (some t2) ∧
      insertNetwork fuel (newTree v rs npa) ⟨bs0, m - 1, d0, v⟩ k val = some (some tp) ∧
      treeHasNetwork t2 ⟨bs0, m, d0, v⟩ = true ∧
      treeHasNetwork t2 ⟨bs1, m, d0, v⟩ = true ∧
      (finalizeTree t2).nodeCount = (finalizeTree tp).nodeCount := by
  have hd : d0 ≤ 254 := by rcases hv with ⟨_, h⟩ | ⟨_, h⟩ <;> omega
  have hd1 : 1 ≤ d0 := by rcases hv with ⟨_, h⟩ | ⟨_, h⟩ <;> omega
  have hrejv : ¬(v = 4 ∧ v = 6) := by rcases hv with ⟨h, _⟩ | ⟨h, _⟩ <;> omega
  by_cases hm : m = 1
  · subst hm
    have hdiff0 : networkBit bs1 d0 d0 = !networkBit bs0 d0 d0 := hdiff
    have hrec1 : insertRecordForNetwork [emptyMNode] ⟨bs0, 1, d0, v⟩ (.data k) fuel =
        some (chainPool bs0 d0 0 k) := by
      obtain ⟨f, rfl⟩ : ∃ f, fuel = f + 1 := ⟨fuel - 1, by omega⟩
      have h := insertRecord_fresh bs0 d0 1 v k f
        (by rw [findSteps_eq_of_le d0 1 (le_refl 1) (by omega) hd]; omega)
      rw [findSteps_eq_of_le d0 1 (le_refl 1) (by omega) hd] at h
      exact h
    have hrecp : insertRecordForNetwork [emptyMNode] ⟨bs0, 1 - 1, d0, v⟩ (.data k) fuel =
        some (chainPool bs0 d0 0 k) := by
      obtain ⟨f, rfl⟩ : ∃ f, fuel = f + 1 := ⟨fuel - 1, by omega⟩
      have h := insertRecord_fresh bs0 d0 0 v k f
        (by rw [findSteps_zero_of_m_zero d0 hd]; omega)
      rw [findSteps_zero_of_m_zero d0 hd] at h
      exact h
    have hrec2 : insertRecordForNetwork (chainPool bs0 d0 0 k) ⟨bs1, 1, d0, v⟩ (.data k)
        fuel = some (sagaFinalPool bs0 bs1 d0 k) :=
      insertRecord_m1 bs0 bs1 d0 v k hd hd1 hdiff0 fuel (by omega)
    refine ⟨{ newTree v rs npa with dataHash := hvStore (newTree v rs npa).dataHash k val, pool := chainPool bs0 d0 0 k, isFinalized := false },
      _, _,
      insertNetwork_of_record fuel (newTree v rs npa) ⟨bs0, 1, d0, v⟩ k val _
        (fun h => hrejv ⟨h.1, h.2⟩) hrec1,
      insertNetwork_of_record fuel _ ⟨bs1, 1, d0, v⟩ k val _
        (fun h => hrejv ⟨h.1, h.2⟩) hrec2,
      insertNetwork_of_record fuel (newTree v rs npa) ⟨bs0, 1 - 1, d0, v⟩ k val _
        (fun h => hrejv ⟨h.1, h.2⟩) hrecp,
      ?_, ?_, ?_⟩
    · show (match haltSel (sagaFinalPool bs0 bs1 d0 k) bs0 d0 0 d0 (findSteps d0 1) with
        | MRecord.empty => false
        | _ => true) = true
      rw [show findSteps d0 1 = 0 from
        by rw [findSteps_eq_of_le d0 1 (le_refl 1) (by omega) hd],
        haltSel_saga bs0 bs1 bs0 d0 k hd1 hdiff0 (Or.inl rfl)]
    · show (match haltSel (sagaFinalPool bs0 bs1 d0 k) bs1 d0 0 d0 (findSteps d0 1) with
        | MRecord.empty => false
        | _ => true) = true
      rw [show findSteps d0 1 = 0 from
        by rw [findSteps_eq_of_le d0 1 (le_refl 1) (by omega) hd],
        haltSel_saga bs0 bs1 bs1 d0 k hd1 hdiff0 (Or.inr rfl)]
    · have hlen2 : (sagaFinalPool bs0 bs1 d0 k).length = d0 + 1 := by
        rw [sagaFinalPool, sagaLeafPool, length_setSide, length_setSide,
          length_sagaPool _ _ _ _ _ hd1]
      have hb2 : Bounded (sagaFinalPool bs0 bs1 d0 k) := by
        intro i j hc
        obtain ⟨h1i, hilt, rfl⟩ := (childOf_saga_iff bs0 bs1 d0 k hd1 hdiff0 i j).mp hc
        rw [hlen2]
        omega
      have hreach2 : ∀ j, Reaches (sagaFinalPool bs0 bs1 d0 k) 0 j ↔ j < 1 := by
        refine reaches_chain_iff _ 1 (by omega) ?_
        intro i j hi
        rw [childOf_saga_iff bs0 bs1 d0 k hd1 hdiff0 i j]
        constructor
        · rintro ⟨h1, _, _⟩
          exact absurd h1 (by omega)
        · rintro ⟨h1, _⟩
          exact absurd h1 (by omega)
      have hbp : Bounded (chainPool bs0 d0 0 k) := by
        intro i j hc
        exact absurd ((childOf_chainPool bs0 d0 0 k i j).mp hc).1 (by omega)
      have hreachp : ∀ j, Reaches (chainPool bs0 d0 0 k) 0 j ↔ j < 1 := by
        refine reaches_chain_iff _ 1 (by omega) ?_
        intro i j hi
        rw [childOf_chainPool bs0 d0 0 k i j]
        constructor
        · rintro ⟨h1, _⟩
          exact absurd h1 (by omega)
        · rintro ⟨h1, _⟩
          exact absurd h1 (by omega)
      have h0len2 : 0 < (sagaFinalPool bs0 bs1 d0 k).length := by
        rw [hlen2]
        omega
      have h0lenp : 0 < (chainPool bs0 d0 0 k).length := by
        rw [length_chainPool]
        omega
      rw [finalize_count _ hb2 h0len2 rfl 1 hreach2,
        finalize_count _ hbp h0lenp rfl 1 hreachp]
  · have hm2 : 2 ≤ m := by omega
    have hrec1 : insertRecordForNetwork [emptyMNode] ⟨bs0, m, d0, v⟩ (.data k) fuel =
        some (chainPool bs0 d0 (m - 1) k) := by
      obtain ⟨f, rfl⟩ : ∃ f, fuel = f + 1 := ⟨fuel - 1, by omega⟩
      have h := insertRecord_fresh bs0 d0 m v k f
        (by rw [findSteps_eq_of_le d0 m (by omega) hmle hd]; omega)
      rw [findSteps_eq_of_le d0 m (by omega) hmle hd] at h
      exact h
    have hrecp : insertRecordForNetwork [emptyMNode] ⟨bs0, m - 1, d0, v⟩ (.data k) fuel =
        some (chainPool bs0 d0 (m - 2) k) := by
      obtain ⟨f, rfl⟩ : ∃ f, fuel = f + 1 := ⟨fuel - 1, by omega⟩
      have h := insertRecord_fresh bs0 d0 (m - 1) v k f
        (by rw [findSteps_eq_of_le d0 (m - 1) (by omega) (by omega) hd]; omega)
      rw [findSteps_eq_of_le d0 (m - 1) (by omega) (by omega) hd,
        show m - 1 - 1 = m - 2 from by omega] at h
      exact h
    have hrec2 : insertRecordForNetwork (chainPool bs0 d0 (m - 1) k) ⟨bs1, m, d0, v⟩
        (.data k) fuel =
        some (setSide (setSide (chainPool bs0 d0 (m - 1) k) (m - 2)
          (networkBit bs1 d0 (d0 - (m - 2))) (.data k)) (m - 1)
          (networkBit bs1 d0 (d0 - (m - 1))) (.data k)) := by
      obtain ⟨f, rfl⟩ : ∃ f, fuel = f + 2 := ⟨fuel - 2, by omega⟩
      exact insertRecord_second bs0 bs1 d0 m v k f hd hm2 hmle hagree hdiff
    refine ⟨{ newTree v rs npa with dataHash := hvStore (newTree v rs npa).dataHash k val, pool := chainPool bs0 d0 (m - 1) k, isFinalized := false },
      _, _,
      insertNetwork_of_record fuel (newTree v rs npa) ⟨bs0, m, d0, v⟩ k val _
        (fun h => hrejv ⟨h.1, h.2⟩) hrec1,
      insertNetwork_of_record fuel _ ⟨bs1, m, d0, v⟩ k val _
        (fun h => hrejv ⟨h.1, h.2⟩) hrec2,
      insertNetwork_of_record fuel (newTree v rs npa) ⟨bs0, m - 1, d0, v⟩ k val _
        (fun h => hrejv ⟨h.1, h.2⟩) hrecp,
      ?_, ?_, ?_⟩
    · show (match haltSel (setSide (setSide (chainPool bs0 d0 (m - 1) k) (m - 2)
          (networkBit bs1 d0 (d0 - (m - 2))) (.data k)) (m - 1)
          (networkBit bs1 d0 (d0 - (m - 1))) (.data k)) bs0 d0 0 d0 (findSteps d0 m) with
        | MRecord.empty => false
        | _ => true) = true
      rw [findSteps_eq_of_le d0 m (by omega) hmle hd,
        haltSel_c2 bs0 bs1 bs0 d0 m k hm2 hagree (fun i _ => rfl)]
    · show (match haltSel (setSide (setSide (chainPool bs0 d0 (m - 1) k) (m - 2)
          (networkBit bs1 d0 (d0 - (m - 2))) (.data k)) (m - 1)
          (networkBit bs1 d0 (d0 - (m - 1))) (.data k)) bs1 d0 0 d0 (findSteps d0 m) with
        | MRecord.empty => false
        | _ => true) = true
      rw [findSteps_eq_of_le d0 m (by omega) hmle hd,
        haltSel_c2 bs0 bs1 bs1 d0 m k hm2 hagree hagree]
    · have hagm2 : networkBit bs1 d0 (d0 - (m - 2)) = networkBit bs0 d0 (d0 - (m - 2)) :=
        hagree (m - 2) (by omega)
      have hlen2 : (setSide (setSide (chainPool bs0 d0 (m - 1) k) (m - 2)
          (networkBit bs1 d0 (d0 - (m - 2))) (.data k)) (m - 1)
          (networkBit bs1 d0 (d0 - (m - 1))) (.data k)).length = m := by
        rw [length_setSide, length_setSide, length_chainPool]
        omega
      have hb2 : Bounded (setSide (setSide (chainPool bs0 d0 (m - 1) k) (m - 2)
          (networkBit bs1 d0 (d0 - (m - 2))) (.data k)) (m - 1)
          (networkBit bs1 d0 (d0 - (m - 1))) (.data k)) := by
        intro i j hc
        obtain ⟨hlt, rfl⟩ := (childOf_c2_iff bs0 bs1 d0 m k hm2 hagm2 i j).mp hc
        rw [hlen2]
        omega
      have hreach2 : ∀ j, Reaches (setSide (setSide (chainPool bs0 d0 (m - 1) k) (m - 2)
          (networkBit bs1 d0 (d0 - (m - 2))) (.data k)) (m - 1)
          (networkBit bs1 d0 (d0 - (m - 1))) (.data k)) 0 j ↔ j < m - 1 :=
        reaches_chain_iff _ (m - 1) (by omega)
          (fun i j _ => childOf_c2_iff bs0 bs1 d0 m k hm2 hagm2 i j)
      have hbp : Bounded (chainPool bs0 d0 (m - 2) k) := by
        intro i j hc
        obtain ⟨hlt, rfl⟩ := (childOf_chainPool bs0 d0 (m - 2) k i j).mp hc
        rw [length_chainPool]
        omega
      have hreachp : ∀ j, Reaches (chainPool bs0 d0 (m - 2) k) 0 j ↔ j < m - 1 := by
        refine reaches_chain_iff _ (m - 1) (by omega) ?_
        intro i j hi
        rw [childOf_chainPool bs0 d0 (m - 2) k i j]
        constructor
        · rintro ⟨h1, h2⟩
          exact ⟨by omega, h2⟩
        · rintro ⟨h1, h2⟩
          exact ⟨by omega, h2⟩
      have h0len2 : 0 < (setSide (setSide (chainPool bs0 d0 (m - 1) k) (m - 2)
          (networkBit bs1 d0 (d0 - (m - 2))) (.data k)) (m - 1)
          (networkBit bs1 d0 (d0 - (m - 1))) (.data k)).length := by
        rw [hlen2]
        omega
      have h0lenp : 0 < (chainPool bs0 d0 (m - 2) k).length := by
        rw [length_chainPool]
        omega
      rw [finalize_count _ hb2 h0len2 rfl (m - 1) hreach2,
        finalize_count _ hbp h0lenp rfl (m - 1) hreachp]

theorem c4_sibling_merge_equiv_witness :
    (((4 : Nat) = 4 ∧ (31 : Nat) = 31) ∨ ((4 : Nat) = 6 ∧ (31 : Nat) = 127)) ∧
    (1 : Nat) ≤ 25 ∧ (25 : Nat) ≤ 31 + 1 ∧
    (∀ i, i < 25 - 1 →
      networkBit [1, 1, 1, 128] 31 (31 - i) = networkBit [1, 1, 1, 0] 31 (31 - i)) ∧
    (networkBit [1, 1, 1, 128] 31 (31 - (25 - 1)) =
      !networkBit [1, 1, 1, 0] 31 (31 - (25 - 1))) ∧
    (600 : Nat) ≤ 600 ∧
    (∃ t1 t2 tp : MTree,
      insertNetwork 600 (newTree 4 24 1) ⟨[1, 1, 1, 0], 25, 31, 4⟩ [4] 6 =
        some (some t1) ∧
      insertNetwork 600 t1 ⟨[1, 1, 1, 128], 25, 31, 4⟩ [4] 6 = some (some t2) ∧
      insertNetwork 600 (newTree 4 24 1) ⟨[1, 1, 1, 0], 25 - 1, 31, 4⟩ [4] 6 =
        some (some tp) ∧
      treeHasNetwork t2 ⟨[1, 1, 1, 0], 25, 31, 4⟩ = true ∧
      treeHasNetwork t2 ⟨[1, 1, 1, 128], 25, 31, 4⟩ = true ∧
      (finalizeTree t2).nodeCount = (finalizeTree tp).nodeCount) :=
  ⟨Or.inl ⟨rfl, rfl⟩, by decide, by decide, by decide, by decide, by decide,
    c4_sibling_merge_equiv 4 24 1 31 25 [1, 1, 1, 0] [1, 1, 1, 128] [4] 6 600
      (Or.inl ⟨rfl, rfl⟩) (by decide) (by decide) (by decide) (by decide) (by decide)⟩
